import Mathlib

/-!
Verification of the python-nexus NEXUS-file reader against its specification.

Lines of text are modelled as lists of characters.  The namespace Src is a
shallow embedding of the code in src/nexus.py (the block-splitting loop of
Nexus.read_file, the DataHandler, TreeHandler and GenericHandler parsers and
the comment stripper); Python exceptions are modelled with Except, and a
Python local variable that may be read before assignment is modelled as an
Option that starts out none.
-/

abbrev Line := List Char

/-- Character list of a string literal. -/
def strL (s : String) : Line := s.toList

/-- Whitespace characters stripped by the Python str.strip method. -/
def isSpaceChar (c : Char) : Bool :=
  c == ' ' || c == '\t' || c == '\n' || c == '\r' || c == '\x0b' || c == '\x0c'

/-- Python str.lower on a line (ASCII). -/
def pyLower (l : Line) : Line := l.map Char.toLower

/-- Python str.strip with no arguments: remove leading and trailing whitespace. -/
def pyStrip (l : Line) : Line :=
  ((l.dropWhile isSpaceChar).reverse.dropWhile isSpaceChar).reverse

/-- Boolean prefix test on character lists. -/
def pfx : Line → Line → Bool
  | [], _ => true
  | _ :: _, [] => false
  | a :: as, b :: bs => a == b && pfx as bs

/-- Boolean substring test: the key occurs contiguously somewhere in the line. -/
def containsSub (key : Line) : Line → Bool
  | [] => pfx key []
  | c :: r => pfx key (c :: r) || containsSub key r

/-- Decimal digit to its character. -/
def digitToChar : Nat → Char
  | 0 => '0' | 1 => '1' | 2 => '2' | 3 => '3' | 4 => '4'
  | 5 => '5' | 6 => '6' | 7 => '7' | 8 => '8' | 9 => '9'
  | _ => '*'

/-- Character to decimal digit, none when it is not a digit. -/
def charToDigit (c : Char) : Option Nat :=
  if c = '0' then some 0 else if c = '1' then some 1 else if c = '2' then some 2
  else if c = '3' then some 3 else if c = '4' then some 4 else if c = '5' then some 5
  else if c = '6' then some 6 else if c = '7' then some 7 else if c = '8' then some 8
  else if c = '9' then some 9 else none

/-- Decimal digit test used by the numeric patterns. -/
def isDigitC (c : Char) : Bool := (charToDigit c).isSome

/-- Decimal printer, fuel-structured so that it evaluates by kernel reduction. -/
def natDigitsAux : Nat → Nat → Line
  | 0, _ => []
  | fuel + 1, n =>
    if n < 10 then [digitToChar n]
    else natDigitsAux fuel (n / 10) ++ [digitToChar (n % 10)]

/-- Decimal representation of a natural number as characters. -/
def natDigits (n : Nat) : Line := natDigitsAux (n + 1) n

/-- Accumulator loop of the decimal reader. -/
def readGo : Nat → Line → Nat
  | acc, [] => acc
  | acc, c :: r => readGo (acc * 10 + (charToDigit c).getD 0) r

/-- Decimal reader on a list of digit characters. -/
def readDigits (l : Line) : Nat := readGo 0 l

/-- First occurrence of the key followed by at least one digit; returns the
value of the maximal digit run after the key.  This embeds the regular
expression patterns NTAX=(\w) style searches: KEY=(\d+) with findall, taking
the first match. -/
def scanNat (key : Line) : Line → Option Nat
  | [] => none
  | c :: r =>
    if pfx key (c :: r) && !(((c :: r).drop key.length).takeWhile isDigitC).isEmpty
    then some (readDigits (((c :: r).drop key.length).takeWhile isDigitC))
    else scanNat key r

/-- Word character of the regular expression class backslash-w. -/
def isWordChar (c : Char) : Bool := c.isAlphanum || c == '_'

/-- First match of the pattern "begin (w+);" in an already lower-cased line,
returning the captured block name; embeds BEGIN_PATTERN.findall followed by
taking the first capture (the source lower-cases the capture afterwards,
which is why scanning the lower-cased line is equivalent). -/
def scanBegin : Line → Option Line
  | [] => none
  | c :: r =>
    if pfx (strL "begin ") (c :: r) then
      let rest := (c :: r).drop 6
      let w := rest.takeWhile isWordChar
      if w.isEmpty then scanBegin r
      else if (rest.drop w.length).head? == some ';' then some w
      else scanBegin r
    else scanBegin r

/-- Anchored match of BEGIN_PATTERN at the start of the line (re.match). -/
def matchBegin (l : Line) : Bool :=
  let ll := pyLower l
  pfx (strL "begin ") ll &&
    (let rest := ll.drop 6
     let w := rest.takeWhile isWordChar
     !w.isEmpty && ((rest.drop w.length).head? == some ';'))

/-- Python line.split(' ', 1): split at the first space character only;
none when the line contains no space at all. -/
def splitFirstSpace : Line → Option (Line × Line)
  | [] => none
  | c :: r =>
    if c == ' ' then some ([], r)
    else (splitFirstSpace r).map (fun p => (c :: p.1, p.2))

/-- Key membership in an association list. -/
def hasKey (k : Line) : List (Line × α) → Bool
  | [] => false
  | (k2, _) :: r => k2 == k || hasKey k r

/-- Lookup in an association list. -/
def alookup (k : Line) : List (Line × α) → Option α
  | [] => none
  | (k2, v) :: r => if k2 == k then some v else alookup k r

/-- Append a value to the list stored under a key, inserting the key at the
end when absent (Python dict insertion order). -/
def appendTo (k : Line) (v : α) : List (Line × List α) → List (Line × List α)
  | [] => [(k, [v])]
  | (k2, vs) :: r => if k2 == k then (k2, vs ++ [v]) :: r else (k2, vs) :: appendTo k v r

/-- Overwrite-or-append assignment on an association list (Python dict item
assignment). -/
def assocSet (k : Line) (v : α) : List (Line × α) → List (Line × α)
  | [] => [(k, v)]
  | (k2, v2) :: r => if k2 == k then (k2, v) :: r else (k2, v2) :: assocSet k v r

/-- Split a line at every occurrence of a separator character
(Python str.split with a one-character separator and no maxsplit). -/
def splitOnChar (sep : Char) : Line → List Line
  | [] => [[]]
  | c :: r =>
    if c == sep then [] :: splitOnChar sep r
    else match splitOnChar sep r with
      | [] => [[c]]
      | p :: ps => (c :: p) :: ps

/-- Worker for pySplitWs carrying the token accumulated so far. -/
def pySplitWsGo (cur : Line) : Line → List Line
  | [] => if cur.isEmpty then [] else [cur]
  | c :: r =>
    if isSpaceChar c then
      if cur.isEmpty then pySplitWsGo [] r else cur :: pySplitWsGo [] r
    else pySplitWsGo (cur ++ [c]) r

/-- Python str.split() with no arguments: split on whitespace runs and drop
empty pieces. -/
def pySplitWs (l : Line) : List Line := pySplitWsGo [] l

/-- Python str.strip(';'): remove semicolon characters from both ends. -/
def stripSemis (l : Line) : Line :=
  ((l.dropWhile (· == ';')).reverse.dropWhile (· == ';')).reverse

/-- Decidable equality for Except values, used to evaluate the embedded
parsers on concrete inputs. -/
instance instDecEqExcept {ε α : Type} [DecidableEq ε] [DecidableEq α] :
    DecidableEq (Except ε α) := fun a b =>
  match a, b with
  | .error e1, .error e2 =>
    if h : e1 = e2 then .isTrue (by rw [h]) else .isFalse (fun hc => h (by injection hc))
  | .error _, .ok _ => .isFalse (fun hc => Except.noConfusion hc)
  | .ok _, .error _ => .isFalse (fun hc => Except.noConfusion hc)
  | .ok a1, .ok a2 =>
    if h : a1 = a2 then .isTrue (by rw [h]) else .isFalse (fun hc => h (by injection hc))

namespace Src

/-- Python exceptions that the source can raise during a parse. -/
inductive Err where
  | dupBlock (name : Line)
  | unboundLocal
  | notImplemented
  | indexError
deriving DecidableEq, Repr

/-- State of the block-splitting loop in Nexus.read_file: the store of raw
block lines and the currently open block. -/
structure SplitSt where
  store : List (Line × List Line)
  block : Option Line
deriving DecidableEq, Repr

/-- Closing-line test of read_file: END_PATTERN1 finds "end;" anywhere in the
line case-insensitively, END_PATTERN2 matches a line that is exactly ";". -/
def isEndL (line : Line) : Bool :=
  containsSub (strL "end;") (pyLower line) || line == strL ";"

/-- One iteration of the loop in Nexus.read_file (lines 197-217 of
src/nexus.py): strip the line, skip blank lines and whole-line comments,
open a block on a begin match (raising on duplicates), close on an end
match, and append the line to the open block. -/
def splitStep (st : SplitSt) (raw : Line) : Except Err SplitSt :=
  let line := pyStrip raw
  if line.isEmpty then .ok st
  else if line.head? == some '[' && line.getLast? == some ']' then .ok st
  else match scanBegin (pyLower line) with
    | some b =>
      if hasKey b st.store then .error (.dupBlock b)
      else
        let store1 := st.store ++ [(b, ([] : List Line))]
        if isEndL line then .ok ⟨store1, none⟩
        else .ok ⟨appendTo b line store1, some b⟩
    | none =>
      if isEndL line then .ok ⟨st.store, none⟩
      else match st.block with
        | some b => .ok ⟨appendTo b line st.store, some b⟩
        | none => .ok st

/-- Fold of splitStep over the input lines. -/
def splitRun (st : SplitSt) : List Line → Except Err SplitSt
  | [] => .ok st
  | l :: ls =>
    match splitStep st l with
    | .error e => .error e
    | .ok st2 => splitRun st2 ls

/-- Block splitting phase of Nexus.read_file on a list of raw input lines. -/
def split (lines : List Line) : Except Err (List (Line × List Line)) :=
  (splitRun ⟨[], none⟩ lines).map SplitSt.store

/-- Value in the format dictionary: either a string or the boolean True that
a bare keyword produces. -/
inductive FormatV where
  | str (v : Line)
  | boolT
deriving DecidableEq, Repr

/-- State of DataHandler during parse.  seen_matrix is a Python local
variable that is only ever assigned True; none models the unbound state. -/
structure Data where
  seen_matrix : Option Bool
  taxa : List Line
  ntaxa : Nat
  nchar : Nat
  format : List (Line × FormatV)
  matrix : List (Line × List Line)
deriving DecidableEq, Repr

/-- Fresh DataHandler as built by DataHandler.__init__. -/
def initData : Data := ⟨none, [], 0, 0, [], []⟩

/-- DataHandler._parse_format_line: lower-case, lstrip the characters of
"format", strip semicolons then whitespace, drop double quotes, split on
whitespace, and read each chunk as key=value or as a bare boolean key
(a chunk with no or several equal signs falls back to the boolean case,
matching the ValueError handler in the source). -/
def parseFormatLine (line : Line) : List (Line × FormatV) :=
  let l1 := (pyLower line).dropWhile
    (fun c => c == 'f' || c == 'o' || c == 'r' || c == 'm' || c == 'a' || c == 't')
  let l2 := pyStrip (stripSemis l1)
  let l3 := l2.filter (fun c => !(c == '"'))
  (pySplitWs l3).foldl
    (fun out chunk =>
      match splitOnChar '=' chunk with
      | [k, v] => assocSet k (.str v) out
      | _ => assocSet chunk .boolT out) []

/-- Matrix-row registration of DataHandler.parse: record the taxon in
first-seen order and append the sites fragment to its matrix entry. -/
def registerSite (s : Data) (t : Line) (v : Line) : Data :=
  { s with
    taxa := if s.taxa.contains t then s.taxa else s.taxa ++ [t],
    matrix := appendTo t v s.matrix }

/-- One line of DataHandler.parse (lines 128-160 of src/nexus.py), with the
branches in source order.  Reading seen_matrix while unbound raises
UnboundLocalError; a missing NTAX or NCHAR group raises IndexError on the
findall result; charstatelabels raises NotImplementedError. -/
def dataStep (s : Data) (line : Line) : Except Err Data :=
  let lline := pyLower line
  if pfx (strL "dimensions ") lline then
    match scanNat (strL "ntax=") lline, scanNat (strL "nchar=") lline with
    | some nt, some nc => .ok { s with ntaxa := nt, nchar := nc }
    | _, _ => .error .indexError
  else if pfx (strL "format ") lline then .ok { s with format := parseFormatLine line }
  else if pfx (strL "matrix") lline then .ok { s with seen_matrix := some true }
  else if matchBegin line then .ok s
  else if containsSub (strL "charstatelabels") lline then .error .notImplemented
  else match s.seen_matrix with
    | none => .error .unboundLocal
    | some _ =>
      match splitFirstSpace line with
      | none => .ok s
      | some (a, b) => .ok (registerSite s (pyStrip a) (pyStrip b))

/-- Fold of dataStep over the block lines. -/
def dataRun (s : Data) : List Line → Except Err Data
  | [] => .ok s
  | l :: ls =>
    match dataStep s l with
    | .error e => .error e
    | .ok s2 => dataRun s2 ls

/-- A parsed block: DataHandler state, TreeHandler storage (the whole line
list appended once by TreeHandler.parse), or GenericHandler storage (every
line appended). -/
inductive Handler where
  | data (d : Data)
  | trees (storage : List (List Line))
  | generic (storage : List Line)
deriving DecidableEq, Repr

/-- Handler construction and parse for one named block, following the
known_blocks registry of the Nexus class. -/
def mkHandler (name : Line) (lines : List Line) : Except Err Handler :=
  if name == strL "data" then (dataRun initData lines).map .data
  else if name == strL "trees" then .ok (.trees [lines])
  else .ok (.generic lines)

/-- Nexus._do_blocks over the raw block store. -/
def doBlocks : List (Line × List Line) → Except Err (List (Line × Handler))
  | [] => .ok []
  | (n, ls) :: r =>
    match mkHandler n ls with
    | .error e => .error e
    | .ok h =>
      match doBlocks r with
      | .error e => .error e
      | .ok hs => .ok ((n, h) :: hs)

/-- Whole parse of Nexus.read_file: block splitting then handler dispatch. -/
def nexus (lines : List Line) : Except Err (List (Line × Handler)) :=
  match split lines with
  | .error e => .error e
  | .ok st => doBlocks st

/-- Nexus._do_blocks as the source executes it: blocks is a class attribute
of Nexus (line 167 of src/nexus.py), so the item assignments land in one
dictionary shared by every instance; the parse therefore folds assocSet over
the class-level dictionary it was given. -/
def doBlocksClass (cls : List (Line × Handler)) :
    List (Line × List Line) → Except Err (List (Line × Handler))
  | [] => .ok cls
  | (n, ls) :: r =>
    match mkHandler n ls with
    | .error e => .error e
    | .ok h => doBlocksClass (assocSet n h cls) r

/-- Nexus.read_file under the class-attribute semantics of blocks: the
result is the new content of the shared class-level blocks dictionary, which
is also what any previously constructed instance now reads. -/
def nexusClass (cls : List (Line × Handler)) (lines : List Line) :
    Except Err (List (Line × Handler)) :=
  match split lines with
  | .error e => .error e
  | .ok st => doBlocksClass cls st

/-- Worker of the comment stripper.  The second argument is none outside a
candidate comment and some buf inside one, where buf holds the characters
consumed since the opening bracket in reverse.  On a closing bracket the
buffer is discarded (the lazy match of COMMENT_PATTERN ends at the first
closing bracket), on a newline or at end of input the buffer is emitted
verbatim (the dot of the pattern cannot cross a newline, and an unclosed
bracket never matches, so re.sub keeps those characters). -/
def stripGo : Line → Option Line → Line
  | [], none => []
  | [], some buf => buf.reverse
  | c :: r, none => if c == '[' then stripGo r (some [c]) else c :: stripGo r none
  | c :: r, some buf =>
    if c == ']' then stripGo r none
    else if c == '\n' then buf.reverse ++ '\n' :: stripGo r none
    else stripGo r (some (c :: buf))

/-- GenericHandler.remove_comments: COMMENT_PATTERN.sub removing every lazy
bracket span from the line. -/
def remove_comments (l : Line) : Line := stripGo l none

/-- Names captured by begin matches over the input, in order, mirroring
exactly the lines on which splitStep can open a block. -/
def beginsOf (lines : List Line) : List Line :=
  lines.filterMap (fun raw =>
    let line := pyStrip raw
    if line.isEmpty then none
    else if line.head? == some '[' && line.getLast? == some ']' then none
    else scanBegin (pyLower line))

end Src

/-- Balance checker following the words of the spec: the line consists of
plain characters and non-nested bracket spans; the second argument is the
current depth (zero or one). -/
def okAux : Line → Nat → Bool
  | [], d => d == 0
  | c :: r, d =>
    if c == '[' then (if d == 0 then okAux r 1 else false)
    else if c == ']' then (if d == 1 then okAux r 0 else false)
    else okAux r d

/-- A single line with properly paired, non-nested bracket spans. -/
def okLine (l : Line) : Bool := okAux l 0

/-- Comment removal following the words of the spec: drop every bracket
span, keeping every character outside the spans in order. -/
def specStripAux : Line → Nat → Line
  | [], _ => []
  | c :: r, d =>
    if c == '[' then specStripAux r 1
    else if c == ']' then specStripAux r 0
    else if d == 0 then c :: specStripAux r 0
    else specStripAux r 1

/-- Specification-side comment stripper on a whole line. -/
def specRemoveComments (l : Line) : Line := specStripAux l 0

namespace Spec

/-!
Modelled from the spec: the full-featured reader and writer of the package
(NexusReader with attribute-aware Data and Trees handlers, the write
serializer and the detranslate operation) is not under src/; only its tests
and callers are (src/nexus/test, src/nexus/bin).  The definitions in this
namespace follow the words of spec.md sections 3, 4.2, 4.4, 4.5 and 4.7.
-/

/-- Modelled from the spec: Data Handler attributes (spec section 3); the
format mapping stores none for a bare boolean keyword. -/
structure DataS where
  ntaxa : Nat
  nchar : Nat
  format : List (Line × Option Line)
  matrix : List (Line × List Line)
  taxa : List Line
  attributes : List Line
deriving DecidableEq, Repr

/-- Modelled from the spec: Trees Handler attributes (spec section 3). -/
structure TreesS where
  translators : List (Line × Line)
  trees : List Line
  attributes : List Line
  was_translated : Bool
  been_detranslated : Bool
deriving DecidableEq, Repr

/-- Modelled from the spec: Taxa Handler attributes (spec section 3). -/
structure TaxaS where
  ntaxa : Nat
  taxa : List Line
  attributes : List Line
deriving DecidableEq, Repr

/-- Modelled from the spec: a parsed block handler; blocks other than data,
characters, trees and taxa fall back to the generic handler storing raw
lines. -/
inductive Handler where
  | data (d : DataS)
  | trees (t : TreesS)
  | taxa (x : TaxaS)
  | generic (lines : List Line)
deriving DecidableEq, Repr

/-- A parsed document: ordered mapping from block name to handler. -/
abbrev Document := List (Line × Handler)

/-- Modelled from the spec: parse errors of section 7. -/
inductive Err where
  | dupBlock (name : Line)
  | malformedDimensions
  | unsupportedConstruct
deriving DecidableEq, Repr

/-- Modelled from the spec (section 4.2): a line that is exactly a begin
statement, case-insensitively, returning the lower-cased block name. -/
def beginLineName (l : Line) : Option Line :=
  let ll := pyLower l
  if pfx (strL "begin ") ll then
    let rest := ll.drop 6
    let w := rest.takeWhile isWordChar
    if w.isEmpty then none
    else if rest.drop w.length == [';'] then some w
    else none
  else none

/-- Modelled from the spec (section 4.2): a block is closed by an end
statement or by a line consisting solely of a semicolon. -/
def isEndLine (l : Line) : Bool := pyLower l == strL "end;" || l == strL ";"

/-- State of the spec block splitter. -/
structure SplitSt where
  store : List (Line × List Line)
  blk : Option Line
deriving DecidableEq, Repr

/-- Modelled from the spec (section 4.2): skip blank lines and whole-line
comments, open a block on a begin statement (duplicate names are a hard
error; the begin line itself is not accumulated), close on an end statement,
accumulate other lines into the open block, and discard lines outside any
block. -/
def splitStep (st : SplitSt) (raw : Line) : Except Err SplitSt :=
  let line := pyStrip raw
  if line.isEmpty then .ok st
  else if line.head? == some '[' && line.getLast? == some ']' then .ok st
  else match beginLineName line with
    | some b =>
      if hasKey b st.store then .error (.dupBlock b)
      else .ok ⟨st.store ++ [(b, [])], some b⟩
    | none =>
      if isEndLine line then .ok ⟨st.store, none⟩
      else match st.blk with
        | some b => .ok ⟨appendTo b line st.store, some b⟩
        | none => .ok st

/-- Fold of the spec splitter over the input lines. -/
def splitRun (st : SplitSt) : List Line → Except Err SplitSt
  | [] => .ok st
  | l :: ls =>
    match splitStep st l with
    | .error e => .error e
    | .ok st2 => splitRun st2 ls

/-- Spec block splitting of a whole input. -/
def split (lines : List Line) : Except Err (List (Line × List Line)) :=
  (splitRun ⟨[], none⟩ lines).map SplitSt.store

/-- Modelled from the spec (section 4.4): ntax and nchar extracted by
pattern match from a dimensions line. -/
def dimsOf (lline : Line) : Option (Nat × Nat) :=
  match scanNat (strL "ntax=") lline, scanNat (strL "nchar=") lline with
  | some a, some b => some (a, b)
  | _, _ => none

/-- Modelled from the spec (section 4.4): a format line tokenized into
lower-case key=value pairs with quotes stripped; a bare keyword with no
equal sign is stored as boolean true (none). -/
def specParseFormat (line : Line) : List (Line × Option Line) :=
  let body := (pyStrip (stripSemis ((pyLower line).drop 7))).filter (fun c => !(c == '"'))
  (pySplitWs body).foldl
    (fun out chunk =>
      match splitOnChar '=' chunk with
      | [k, v] => out ++ [(k, some v)]
      | _ => out ++ [(chunk, none)]) []

/-- Modelled from the spec (section 4.4): split a matrix row on its first
run of whitespace into taxon and fragment; none when no such split exists. -/
def splitWsRun (l : Line) : Option (Line × Line) :=
  let t := l.takeWhile (fun c => !(isSpaceChar c))
  let rest := (l.drop t.length).dropWhile isSpaceChar
  if t.isEmpty || rest.isEmpty then none else some (t, rest)

/-- Modelled from the spec (section 4.4): register the taxon in first-seen
order and append the fragment to its matrix entry. -/
def registerRow (s : DataS) (t frag : Line) : DataS :=
  { s with
    taxa := if s.taxa.contains t then s.taxa else s.taxa ++ [t],
    matrix := appendTo t frag s.matrix }

/-- Modelled from the spec (section 4.4): one line of the data handler
parse; the boolean is the matrix-reading mode. -/
def dataStep (st : Bool × DataS) (line : Line) : Except Err (Bool × DataS) :=
  let m := st.1
  let s := st.2
  let lline := pyLower line
  if pfx (strL "dimensions ") lline then
    match dimsOf lline with
    | some (nt, nc) => .ok (m, { s with ntaxa := nt, nchar := nc })
    | none => .error .malformedDimensions
  else if pfx (strL "format ") lline then .ok (m, { s with format := specParseFormat line })
  else if pfx (strL "matrix") lline then .ok (true, s)
  else if containsSub (strL "charstatelabels") lline then .error .unsupportedConstruct
  else if pfx (strL "title ") lline || pfx (strL "link ") lline then
    .ok (m, { s with attributes := s.attributes ++ [line] })
  else if m then
    match splitWsRun line with
    | none => .ok (m, s)
    | some (a, b) => .ok (m, registerRow s a b)
  else .ok (m, s)

/-- Fold of the data handler parse. -/
def dataRun (st : Bool × DataS) : List Line → Except Err (Bool × DataS)
  | [] => .ok st
  | l :: ls =>
    match dataStep st l with
    | .error e => .error e
    | .ok st2 => dataRun st2 ls

/-- Fresh data handler state. -/
def initDataS : DataS := ⟨0, 0, [], [], [], []⟩

/-- Spec data handler parse of a block's accumulated lines. -/
def parseData (lines : List Line) : Except Err DataS :=
  (dataRun (false, initDataS) lines).map Prod.snd

/-- Modelled from the spec (section 4.5): one chunk of a translate table,
label then taxon; the label is the first whitespace-free token of the
stripped chunk and the taxon is the stripped remainder.  A chunk lacking
either part (for instance the empty chunk a tolerated trailing comma
leaves) yields no pair. -/
def pairOfChunk (c : Line) : Option (Line × Line) :=
  let c2 := pyStrip c
  let lab := c2.takeWhile (fun ch => !(isSpaceChar ch))
  let tax := pyStrip (c2.drop lab.length)
  if lab.isEmpty || tax.isEmpty then none else some (lab, tax)

/-- Modelled from the spec (section 4.5): the label/taxon pairs found on one
translate-table line; the line may carry several comma-separated pairs. -/
def pairsOfLine (l : Line) : List (Line × Line) :=
  (splitOnChar ',' l).filterMap pairOfChunk

/-- One translate-table line: everything before a terminating semicolon
contributes pairs, and the semicolon ends the table. -/
def transLine (s : TreesS) (line : Line) : Bool × TreesS :=
  let done := line.contains ';'
  let body := line.takeWhile (fun c => !(c == ';'))
  (!done, { s with translators := s.translators ++ pairsOfLine body })

/-- Modelled from the spec (section 4.5): one line of the trees handler
parse; the boolean records being inside a translate statement.  The
statement is a block of label/taxon pairs, several per line allowed,
terminated by a semicolon; the table may follow the translate keyword on
the same line. -/
def treesStep (st : Bool × TreesS) (line : Line) : Bool × TreesS :=
  let m := st.1
  let s := st.2
  if m then transLine s line
  else
    let lline := pyLower line
    if pfx (strL "title ") lline || pfx (strL "link ") lline then
      (m, { s with attributes := s.attributes ++ [line] })
    else if pfx (strL "translate") lline then
      transLine { s with was_translated := true } (pyStrip (line.drop 9))
    else if pfx (strL "tree ") lline then (m, { s with trees := s.trees ++ [line] })
    else (m, s)

/-- Fold of the trees handler parse. -/
def treesRun (st : Bool × TreesS) : List Line → Bool × TreesS
  | [] => st
  | l :: ls => treesRun (treesStep st l) ls

/-- Fresh trees handler state. -/
def initTreesS : TreesS := ⟨[], [], [], false, false⟩

/-- Spec trees handler parse of a block's accumulated lines. -/
def parseTrees (lines : List Line) : TreesS :=
  (treesRun (false, initTreesS) lines).2

/-- The single-quote character of the emitted taxon labels. -/
def squote : Char := Char.ofNat 39

/-- Strip one pair of surrounding single quotes from a taxon token. -/
def unquote (t : Line) : Line :=
  if 2 ≤ t.length && t.head? == some squote && t.getLast? == some squote then
    (t.drop 1).dropLast
  else t

/-- Modelled from the spec (section 4.6): one taxlabels payload line.  The
numbered bracket prefixes of the emitted label form are bracket comments
and are removed, surrounding quotes are stripped, and the remaining
whitespace-delimited tokens are taxa; a semicolon terminates the
statement. -/
def taxaPayload (s : TaxaS) (l : Line) : Bool × TaxaS :=
  let body := pyStrip (specRemoveComments l)
  let done := body.contains ';'
  let core := body.takeWhile (fun c => !(c == ';'))
  (!done, { s with taxa := s.taxa ++ (pySplitWs core).map unquote })

/-- Modelled from the spec (section 4.6): one line of the taxa handler
parse; the boolean records being inside a taxlabels statement.  The
taxlabels payload may start on the keyword line or run over the following
lines, one or several taxa per line. -/
def taxaStep (st : Bool × TaxaS) (line : Line) : Bool × TaxaS :=
  let m := st.1
  let s := st.2
  let lline := pyLower line
  if pfx (strL "dimensions ") lline then
    (m, { s with ntaxa := (scanNat (strL "ntax=") lline).getD s.ntaxa })
  else if pfx (strL "title ") lline || pfx (strL "link ") lline then
    (m, { s with attributes := s.attributes ++ [line] })
  else if pfx (strL "taxlabels") lline then taxaPayload s (pyStrip (line.drop 9))
  else if m then taxaPayload s line
  else (m, s)

/-- Fold of the taxa handler parse. -/
def taxaRun (st : Bool × TaxaS) : List Line → Bool × TaxaS
  | [] => st
  | l :: ls => taxaRun (taxaStep st l) ls

/-- Fresh taxa handler state. -/
def initTaxaS : TaxaS := ⟨0, [], []⟩

/-- Spec taxa handler parse of a block's accumulated lines. -/
def parseTaxa (lines : List Line) : TaxaS :=
  (taxaRun (false, initTaxaS) lines).2

/-- Modelled from the spec (section 4.3): registry dispatch with the
default entries of the registry, data and characters to the Data Handler,
trees to the Trees Handler, taxa to the Taxa Handler, and the generic
fallback for unmatched names. -/
def mkHandler (name : Line) (lines : List Line) : Except Err Handler :=
  if name == strL "data" || name == strL "characters" then (parseData lines).map .data
  else if name == strL "trees" then .ok (.trees (parseTrees lines))
  else if name == strL "taxa" then .ok (.taxa (parseTaxa lines))
  else .ok (.generic lines)

/-- Handler dispatch over the split store. -/
def doHandlers : List (Line × List Line) → Except Err Document
  | [] => .ok []
  | (n, ls) :: r =>
    match mkHandler n ls with
    | .error e => .error e
    | .ok h =>
      match doHandlers r with
      | .error e => .error e
      | .ok hs => .ok ((n, h) :: hs)

/-- Modelled from the spec: whole parse, text to Document. -/
def doc (lines : List Line) : Except Err Document :=
  match split lines with
  | .error e => .error e
  | .ok st => doHandlers st

/-- The dimensions line emitted by the data writer. -/
def dimsLine (s : DataS) : Line :=
  strL "dimensions ntax=" ++
    (natDigits s.ntaxa ++ (strL " nchar=" ++ (natDigits s.nchar ++ [';'])))

/-- One format chunk: key=value, or the bare key for a boolean. -/
def fmtChunk : Line × Option Line → Line
  | (k, some v) => k ++ '=' :: v
  | (k, none) => k

/-- The format line emitted by the data writer. -/
def formatLine (s : DataS) : Line :=
  strL "format " ++ (List.intercalate [' '] (s.format.map fmtChunk)) ++ [';']

/-- The matrix row emitted for one taxon: the taxon, one space, and the
concatenation of its interleave fragments. -/
def rowLine (s : DataS) (t : Line) : Line :=
  t ++ ' ' :: ((alookup t s.matrix).getD []).flatten

/-- Modelled from the spec (section 4.4 write): begin line carrying the
block's own name (data or its characters variant), attributes verbatim,
dimensions, format, matrix keyword, one row per taxon, a closing semicolon
and the end line. -/
def writeData (n : Line) (s : DataS) : List Line :=
  (strL "begin " ++ (n ++ [';'])) :: s.attributes ++ [dimsLine s] ++ [formatLine s] ++
    [strL "matrix"] ++ s.taxa.map (rowLine s) ++ [strL ";", strL "end;"]

/-- The dimensions line emitted by the taxa writer. -/
def taxaDimsLine (s : TaxaS) : Line :=
  strL "dimensions ntax=" ++ (natDigits s.ntaxa ++ [';'])

/-- One emitted taxon label line: bracketed 1-based index, a space, and the
quoted taxon. -/
def taxLine (i : Nat) (t : Line) : Line :=
  '[' :: (natDigits i ++ (']' :: ' ' :: squote :: (t ++ [squote])))

/-- The emitted label lines of a taxa block, indices starting at i. -/
def taxLines (i : Nat) : List Line → List Line
  | [] => []
  | t :: r => taxLine i t :: taxLines (i + 1) r

/-- Modelled from the spec (section 4.6 write): begin line, attributes,
dimensions, the taxlabels keyword, one bracketed quoted label per taxon, a
closing semicolon and the end line. -/
def writeTaxa (s : TaxaS) : List Line :=
  strL "begin taxa;" :: s.attributes ++ [taxaDimsLine s] ++ [strL "taxlabels"] ++
    taxLines 1 s.taxa ++ [strL ";", strL "end;"]

/-- Translate pair lines: every pair on its own line with a trailing comma,
the final pair with the terminating semicolon. -/
def pairLines : List (Line × Line) → List Line
  | [] => []
  | [(lab, tax)] => [lab ++ ' ' :: tax ++ [';']]
  | (lab, tax) :: r => (lab ++ ' ' :: tax ++ [',']) :: pairLines r

/-- The translate statement emitted by the trees writer, empty when there
are no translators. -/
def transInner (tr : List (Line × Line)) : List Line :=
  match tr with
  | [] => []
  | _ => strL "translate" :: pairLines tr

/-- Modelled from the spec (section 4.5 write): begin line, attributes,
translate statement when translators are present, tree statements verbatim,
end line. -/
def writeTrees (s : TreesS) : List Line :=
  strL "begin trees;" :: s.attributes ++ transInner s.translators ++ s.trees ++ [strL "end;"]

/-- Serialization of one block. -/
def writeBlock : Line × Handler → List Line
  | (n, .data s) => writeData n s
  | (_, .trees s) => writeTrees s
  | (_, .taxa s) => writeTaxa s
  | (n, .generic ls) => (strL "begin " ++ n ++ [';']) :: ls ++ [strL "end;"]

/-- Modelled from the spec: serialization of a whole Document. -/
def writeDoc : Document → List Line
  | [] => []
  | b :: r => writeBlock b ++ writeDoc r

/-- Token characters of tree label substitution: a numeric label must not
match inside a longer token such as a branch length or a composite name. -/
def isTokChar (c : Char) : Bool :=
  c.isAlphanum || c == '_' || c == '-' || c == '.'

/-- Emit one completed token: a token preceded by a colon is a branch
length and stays; otherwise a token equal to a translate label is replaced
by its taxon name. -/
def flushTok (tr : List (Line × Line)) (cur : Line) (prevColon : Bool) : Line :=
  if cur.isEmpty then [] else if prevColon then cur else (alookup cur tr).getD cur

/-- Modelled from the spec (section 4.5): boundary-anchored substitution of
translate labels inside one tree statement. -/
def substGo (tr : List (Line × Line)) : Line → Line → Bool → Line
  | [], cur, prevColon => flushTok tr cur prevColon
  | c :: r, cur, prevColon =>
    if isTokChar c then substGo tr r (cur ++ [c]) prevColon
    else flushTok tr cur prevColon ++ c :: substGo tr r [] (c == ':')

/-- Label substitution over a whole tree statement. -/
def substLabels (tr : List (Line × Line)) (l : Line) : Line := substGo tr l [] false

/-- Modelled from the spec (section 4.5): detranslate rewrites the numeric
labels of every stored tree back to taxon names and records that it ran;
been_detranslated guards a second call, which must be a no-op. -/
def detranslate (s : TreesS) : TreesS :=
  if s.been_detranslated then s
  else
    { s with
      trees := s.trees.map (substLabels s.translators),
      been_detranslated := true }

end Spec

namespace Spec

/-- Head of a line is not whitespace (true on the empty line). -/
def headNotSpace (l : Line) : Bool :=
  match l.head? with
  | some c => !isSpaceChar c
  | none => true

/-- Last character of a line is not whitespace (true on the empty line). -/
def lastNotSpace (l : Line) : Bool :=
  match l.getLast? with
  | some c => !isSpaceChar c
  | none => true

/-- A line that the spec block splitter stores unchanged inside an open
block: already stripped, non-blank, not a whole-line comment, not a begin
statement and not an end statement. -/
def contentLine (L : Line) : Prop :=
  pyStrip L = L ∧ L ≠ [] ∧
  (L.head? == some '[' && L.getLast? == some ']') = false ∧
  beginLineName L = none ∧ isEndLine L = false

instance (L : Line) : Decidable (contentLine L) := by
  unfold contentLine; infer_instance

/-- Well-formed attribute line: a stored TITLE or LINK declaration. -/
def attrWF (L : Line) : Prop :=
  contentLine L ∧
  (pfx (strL "title ") (pyLower L) = true ∨ pfx (strL "link ") (pyLower L) = true) ∧
  containsSub (strL "charstatelabels") (pyLower L) = false

instance (L : Line) : Decidable (attrWF L) := by
  unfold attrWF; infer_instance

/-- The serialized matrix row of a taxon. -/
def rowContent (s : DataS) (t : Line) : Line := ((alookup t s.matrix).getD []).flatten

/-- Well-formed matrix entry: the taxon token has no whitespace, the
concatenated fragments start with a visible character, and the serialized
row is a plain content line that matches no keyword branch. -/
def rowOK (t : Line) (frags : List Line) : Prop :=
  t ≠ [] ∧ (∀ c ∈ t, isSpaceChar c = false) ∧
  frags.flatten ≠ [] ∧ headNotSpace frags.flatten = true ∧
  contentLine (t ++ ' ' :: frags.flatten) ∧
  pfx (strL "dimensions ") (pyLower (t ++ ' ' :: frags.flatten)) = false ∧
  pfx (strL "format ") (pyLower (t ++ ' ' :: frags.flatten)) = false ∧
  pfx (strL "matrix") (pyLower (t ++ ' ' :: frags.flatten)) = false ∧
  containsSub (strL "charstatelabels") (pyLower (t ++ ' ' :: frags.flatten)) = false ∧
  pfx (strL "title ") (pyLower (t ++ ' ' :: frags.flatten)) = false ∧
  pfx (strL "link ") (pyLower (t ++ ' ' :: frags.flatten)) = false

instance (t : Line) (frags : List Line) : Decidable (rowOK t frags) := by
  unfold rowOK; infer_instance

/-- Well-formed data handler state for the round trip. -/
def dataWF (s : DataS) : Prop :=
  (∀ L ∈ s.attributes, attrWF L) ∧
  s.taxa.Nodup ∧
  s.matrix.map Prod.fst = s.taxa ∧
  (∀ p ∈ s.matrix, rowOK p.1 p.2)

instance (s : DataS) : Decidable (dataWF s) := by
  unfold dataWF; infer_instance

/-- Well-formed translate pair: the label token has no whitespace and no
separator characters, the taxon starts and ends with a visible character
and contains no separator characters, and both serialized pair lines are
plain content lines. -/
def pairWF (p : Line × Line) : Prop :=
  p.1 ≠ [] ∧ (∀ c ∈ p.1, isSpaceChar c = false ∧ (c == ',') = false ∧ (c == ';') = false) ∧
  p.2 ≠ [] ∧ headNotSpace p.2 = true ∧ lastNotSpace p.2 = true ∧
  (∀ c ∈ p.2, (c == ',') = false ∧ (c == ';') = false) ∧
  contentLine (p.1 ++ ' ' :: (p.2 ++ [','])) ∧
  contentLine (p.1 ++ ' ' :: (p.2 ++ [';']))

instance (p : Line × Line) : Decidable (pairWF p) := by
  unfold pairWF; infer_instance

/-- Well-formed taxon name of a taxa block: non-empty, with no whitespace,
quote, bracket or semicolon characters. -/
def taxonWF (t : Line) : Prop :=
  t ≠ [] ∧ ∀ c ∈ t, isSpaceChar c = false ∧ (c == squote) = false ∧
    (c == '[') = false ∧ (c == ']') = false ∧ (c == ';') = false

instance (t : Line) : Decidable (taxonWF t) := by
  unfold taxonWF; infer_instance

/-- Well-formed taxa handler state for the round trip. -/
def taxaWF (s : TaxaS) : Prop :=
  (∀ L ∈ s.attributes, attrWF L) ∧ ∀ t ∈ s.taxa, taxonWF t

instance (s : TaxaS) : Decidable (taxaWF s) := by
  unfold taxaWF; infer_instance

/-- Well-formed stored tree statement. -/
def treeLineWF (L : Line) : Prop :=
  contentLine L ∧ pfx (strL "tree ") (pyLower L) = true

instance (L : Line) : Decidable (treeLineWF L) := by
  unfold treeLineWF; infer_instance

/-- Well-formed trees handler state for the round trip. -/
def treesWF (s : TreesS) : Prop :=
  (∀ L ∈ s.attributes, attrWF L) ∧
  (∀ L ∈ s.trees, treeLineWF L) ∧
  (∀ p ∈ s.translators, pairWF p)

instance (s : TreesS) : Decidable (treesWF s) := by
  unfold treesWF; infer_instance

/-- Well-formed block name: non-empty lower-case word characters. -/
def nameWF (n : Line) : Prop :=
  n ≠ [] ∧ (∀ c ∈ n, isWordChar c = true ∧ c.toLower = c)

instance (n : Line) : Decidable (nameWF n) := by
  unfold nameWF; infer_instance

/-- Well-formed named block: the handler kind matches the registry entry of
its name and the handler state is well formed. -/
def blockWF : Line × Handler → Prop
  | (n, .data s) => (n = strL "data" ∨ n = strL "characters") ∧ dataWF s
  | (n, .trees s) => n = strL "trees" ∧ treesWF s
  | (n, .taxa s) => n = strL "taxa" ∧ taxaWF s
  | (n, .generic ls) =>
    nameWF n ∧ n ≠ strL "data" ∧ n ≠ strL "characters" ∧ n ≠ strL "trees" ∧
    n ≠ strL "taxa" ∧ ∀ L ∈ ls, contentLine L

instance : (p : Line × Handler) → Decidable (blockWF p) := fun p => by
  obtain ⟨n, h⟩ := p
  cases h <;> (unfold blockWF; infer_instance)

/-- Well-formed document: distinct block names, well-formed blocks. -/
def docWF (d : Document) : Prop :=
  (d.map Prod.fst).Nodup ∧ ∀ p ∈ d, blockWF p

instance (d : Document) : Decidable (docWF d) := by
  unfold docWF; infer_instance

/-- Semantic equivalence of handlers as the round-trip claim states it:
equal dimensions, taxa, attributes and per-taxon concatenated matrix
contents for data; equal translators, trees and attributes for trees; equal
stored lines for generic blocks. -/
def handlerEquiv : Handler → Handler → Prop
  | .data a, .data b =>
    a.ntaxa = b.ntaxa ∧ a.nchar = b.nchar ∧ a.taxa = b.taxa ∧
      a.attributes = b.attributes ∧
      ∀ t, (alookup t a.matrix).map List.flatten = (alookup t b.matrix).map List.flatten
  | .trees a, .trees b =>
    a.translators = b.translators ∧ a.trees = b.trees ∧ a.attributes = b.attributes
  | .taxa a, .taxa b =>
    a.ntaxa = b.ntaxa ∧ a.taxa = b.taxa ∧ a.attributes = b.attributes
  | .generic a, .generic b => a = b
  | _, _ => False

/-- Semantic equivalence of documents: same block names in the same order
with pointwise equivalent handlers. -/
def docEquiv : Document → Document → Prop
  | [], [] => True
  | (n1, h1) :: r1, (n2, h2) :: r2 => n1 = n2 ∧ handlerEquiv h1 h2 ∧ docEquiv r1 r2
  | _, _ => False

/-- The data handler state produced by re-parsing the written block. -/
def reparseData (s : DataS) : DataS :=
  ⟨s.ntaxa, s.nchar, specParseFormat (formatLine s),
    s.taxa.map (fun t => (t, [rowContent s t])), s.taxa, s.attributes⟩

/-- The trees handler state produced by re-parsing the written block. -/
def reparseTrees (s : TreesS) : TreesS :=
  ⟨s.translators, s.trees, s.attributes, !s.translators.isEmpty, false⟩

/-- The taxa handler state produced by re-parsing the written block. -/
def reparseTaxa (s : TaxaS) : TaxaS := ⟨s.ntaxa, s.taxa, s.attributes⟩

/-- The handler produced by re-parsing one written block. -/
def reparseHandler : Line × Handler → Handler
  | (_, .data s) => .data (reparseData s)
  | (_, .trees s) => .trees (reparseTrees s)
  | (_, .taxa s) => .taxa (reparseTaxa s)
  | (_, .generic ls) => .generic ls

/-- The document produced by re-parsing the written document. -/
def reparseDoc (d : Document) : Document := d.map (fun p => (p.1, reparseHandler p))

/-- The lines the splitter accumulates for one written block: everything
between the begin line and the closing line. -/
def innerOf : Line × Handler → List Line
  | (_, .data s) =>
    s.attributes ++ dimsLine s :: formatLine s :: strL "matrix" :: s.taxa.map (rowLine s)
  | (_, .trees s) => s.attributes ++ transInner s.translators ++ s.trees
  | (_, .taxa s) => s.attributes ++ taxaDimsLine s :: strL "taxlabels" :: taxLines 1 s.taxa
  | (_, .generic ls) => ls

/-- The raw store the splitter produces for a written document. -/
def storeOf (d : Document) : List (Line × List Line) :=
  d.map (fun p => (p.1, innerOf p))

end Spec

/-- Invariant of the splitting loop: an open block always has a store entry. -/
def blockInv (st : Src.SplitSt) : Prop :=
  ∀ b, st.block = some b → hasKey b st.store = true

/-- Contribution of a single raw line to beginsOf. -/
def beginOf (raw : Line) : Option Line :=
  if (pyStrip raw).isEmpty then none
  else if (pyStrip raw).head? == some '[' && (pyStrip raw).getLast? == some ']' then none
  else scanBegin (pyLower (pyStrip raw))

/-- Branch conditions under which DataHandler.parse treats a line as a
candidate matrix row. -/
def plainMatrixLine (L : Line) : Prop :=
  pfx (strL "dimensions ") (pyLower L) = false ∧
  pfx (strL "format ") (pyLower L) = false ∧
  pfx (strL "matrix") (pyLower L) = false ∧
  matchBegin L = false ∧
  containsSub (strL "charstatelabels") (pyLower L) = false

instance (L : Line) : Decidable (plainMatrixLine L) := by
  unfold plainMatrixLine; infer_instance


section AssocLemmas

theorem hasKey_iff_mem (k : Line) (l : List (Line × α)) :
    hasKey k l = true ↔ k ∈ l.map Prod.fst := by
  induction l with
  | nil => simp [hasKey]
  | cons p r ih =>
    obtain ⟨k2, v⟩ := p
    simp only [hasKey, Bool.or_eq_true, beq_iff_eq, ih, List.map_cons, List.mem_cons]
    exact or_congr eq_comm Iff.rfl

theorem hasKey_false_iff (k : Line) (l : List (Line × α)) :
    hasKey k l = false ↔ k ∉ l.map Prod.fst := by
  rw [← hasKey_iff_mem]
  cases h : hasKey k l <;> simp [h]

theorem keys_appendTo_of_hasKey (k : Line) (v : α) (l : List (Line × List α))
    (h : hasKey k l = true) :
    (appendTo k v l).map Prod.fst = l.map Prod.fst := by
  induction l with
  | nil => simp [hasKey] at h
  | cons p r ih =>
    obtain ⟨k2, vs⟩ := p
    by_cases hk : k2 = k
    · simp [appendTo, hk]
    · have hk2 : (k2 == k) = false := by simp [hk]
      simp only [hasKey, hk2, Bool.false_or] at h
      simp [appendTo, hk2, ih h]

theorem hasKey_appendTo_self (k : Line) (v : α) (l : List (Line × List α)) :
    hasKey k (appendTo k v l) = true := by
  induction l with
  | nil => simp [appendTo, hasKey]
  | cons p r ih =>
    obtain ⟨k2, vs⟩ := p
    by_cases hk : k2 = k
    · simp [appendTo, hasKey, hk]
    · have hk2 : (k2 == k) = false := by simp [hk]
      simp [appendTo, hasKey, hk2, ih]

theorem hasKey_append (k : Line) (l1 l2 : List (Line × α)) :
    hasKey k (l1 ++ l2) = (hasKey k l1 || hasKey k l2) := by
  induction l1 with
  | nil => simp [hasKey]
  | cons p r ih =>
    obtain ⟨k2, v⟩ := p
    simp [hasKey, ih, Bool.or_assoc]

theorem appendTo_append_of_not_hasKey (k : Line) (v : α)
    (l rest : List (Line × List α)) (h : hasKey k l = false) :
    appendTo k v (l ++ rest) = l ++ appendTo k v rest := by
  induction l with
  | nil => simp
  | cons p r ih =>
    obtain ⟨k2, vs⟩ := p
    simp only [hasKey, Bool.or_eq_false_iff] at h
    simp [appendTo, h.1, ih h.2]

end AssocLemmas

section SplitterLemmas

theorem beginsOf_nil : Src.beginsOf [] = [] := rfl

theorem beginsOf_cons (raw : Line) (ls : List Line) :
    Src.beginsOf (raw :: ls) =
      match beginOf raw with
      | some b => b :: Src.beginsOf ls
      | none => Src.beginsOf ls := by
  simp only [Src.beginsOf, beginOf, List.filterMap_cons]
  cases h : (if (pyStrip raw).isEmpty = true then none
      else if ((pyStrip raw).head? == some '[' && (pyStrip raw).getLast? == some ']') = true
      then none else scanBegin (pyLower (pyStrip raw))) <;> simp [h]

theorem splitStep_skip_empty (st : Src.SplitSt) (raw : Line)
    (h1 : (pyStrip raw).isEmpty = true) : Src.splitStep st raw = .ok st := by
  simp [Src.splitStep, h1]

theorem splitStep_skip_comment (st : Src.SplitSt) (raw : Line)
    (h1 : (pyStrip raw).isEmpty = false)
    (h2 : ((pyStrip raw).head? == some '[' && (pyStrip raw).getLast? == some ']') = true) :
    Src.splitStep st raw = .ok st := by
  simp [Src.splitStep, h1, h2]

theorem splitStep_nobegin (st : Src.SplitSt) (raw : Line)
    (h1 : (pyStrip raw).isEmpty = false)
    (h2 : ((pyStrip raw).head? == some '[' && (pyStrip raw).getLast? == some ']') = false)
    (h3 : scanBegin (pyLower (pyStrip raw)) = none) :
    Src.splitStep st raw =
      (if Src.isEndL (pyStrip raw) then .ok ⟨st.store, none⟩
       else match st.block with
         | some b => .ok ⟨appendTo b (pyStrip raw) st.store, some b⟩
         | none => .ok st) := by
  simp [Src.splitStep, h1, h2, h3]

theorem splitStep_begin (st : Src.SplitSt) (raw : Line) (b : Line)
    (h1 : (pyStrip raw).isEmpty = false)
    (h2 : ((pyStrip raw).head? == some '[' && (pyStrip raw).getLast? == some ']') = false)
    (h3 : scanBegin (pyLower (pyStrip raw)) = some b) :
    Src.splitStep st raw =
      (if hasKey b st.store then .error (.dupBlock b)
       else if Src.isEndL (pyStrip raw) then .ok ⟨st.store ++ [(b, [])], none⟩
       else .ok ⟨st.store ++ [(b, [pyStrip raw])], some b⟩) := by
  by_cases hk : hasKey b st.store = true
  · simp [Src.splitStep, h1, h2, h3, hk]
  · have hk2 : hasKey b st.store = false := by simpa using hk
    have happ : appendTo b (pyStrip raw) (st.store ++ [(b, [])]) =
        st.store ++ [(b, [pyStrip raw])] := by
      rw [appendTo_append_of_not_hasKey _ _ _ _ hk2]
      simp [appendTo]
    by_cases he : Src.isEndL (pyStrip raw) = true
    · simp [Src.splitStep, h1, h2, h3, hk2, he]
    · simp [Src.splitStep, h1, h2, h3, hk2, he, happ]

theorem splitRun_cons_ok {st st2 : Src.SplitSt} {raw : Line} (ls : List Line)
    (h : Src.splitStep st raw = .ok st2) :
    Src.splitRun st (raw :: ls) = Src.splitRun st2 ls := by
  simp [Src.splitRun, h]

theorem splitRun_cons_err {st : Src.SplitSt} {raw : Line} {e : Src.Err} (ls : List Line)
    (h : Src.splitStep st raw = .error e) :
    Src.splitRun st (raw :: ls) = .error e := by
  simp [Src.splitRun, h]

theorem splitRun_ok_of_nodup (lines : List Line) (st : Src.SplitSt)
    (hinv : blockInv st)
    (hn : (st.store.map Prod.fst ++ Src.beginsOf lines).Nodup) :
    ∃ st2, Src.splitRun st lines = .ok st2 ∧
      st2.store.map Prod.fst = st.store.map Prod.fst ++ Src.beginsOf lines := by
  induction lines generalizing st with
  | nil => exact ⟨st, rfl, by simp [Src.beginsOf]⟩
  | cons raw ls ih =>
    rw [beginsOf_cons] at hn ⊢
    cases h1 : (pyStrip raw).isEmpty with
    | true =>
      have hb : beginOf raw = none := by simp [beginOf, h1]
      simp only [hb] at hn ⊢
      obtain ⟨st2, hrun, hkeys⟩ := ih st hinv hn
      exact ⟨st2, by rw [splitRun_cons_ok ls (splitStep_skip_empty st raw h1), hrun], hkeys⟩
    | false =>
      cases h2 : ((pyStrip raw).head? == some '[' && (pyStrip raw).getLast? == some ']') with
      | true =>
        have hb : beginOf raw = none := by simp [beginOf, h1, h2]
        simp only [hb] at hn ⊢
        obtain ⟨st2, hrun, hkeys⟩ := ih st hinv hn
        exact ⟨st2, by rw [splitRun_cons_ok ls (splitStep_skip_comment st raw h1 h2), hrun], hkeys⟩
      | false =>
        cases h3 : scanBegin (pyLower (pyStrip raw)) with
        | none =>
          have hb : beginOf raw = none := by simp [beginOf, h1, h2, h3]
          simp only [hb] at hn ⊢
          have hstep := splitStep_nobegin st raw h1 h2 h3
          by_cases he : Src.isEndL (pyStrip raw) = true
          · rw [if_pos he] at hstep
            have hinv2 : blockInv ⟨st.store, none⟩ := by intro b hb2; simp at hb2
            obtain ⟨st2, hrun, hkeys⟩ := ih ⟨st.store, none⟩ hinv2 hn
            exact ⟨st2, by rw [splitRun_cons_ok ls hstep, hrun], hkeys⟩
          · rw [if_neg he] at hstep
            cases hblk : st.block with
            | none =>
              rw [hblk] at hstep
              obtain ⟨st2, hrun, hkeys⟩ := ih st hinv hn
              exact ⟨st2, by rw [splitRun_cons_ok ls hstep, hrun], hkeys⟩
            | some b =>
              rw [hblk] at hstep
              have hk := hinv b hblk
              have hkeys2 : (appendTo b (pyStrip raw) st.store).map Prod.fst =
                  st.store.map Prod.fst := keys_appendTo_of_hasKey _ _ _ hk
              have hinv2 : blockInv ⟨appendTo b (pyStrip raw) st.store, some b⟩ := by
                intro b2 hb2
                simp only at hb2
                cases hb2
                exact hasKey_appendTo_self _ _ _
              obtain ⟨st2, hrun, hkeys⟩ :=
                ih ⟨appendTo b (pyStrip raw) st.store, some b⟩ hinv2 (by simpa [hkeys2])
              exact ⟨st2, by rw [splitRun_cons_ok ls hstep, hrun],
                by simpa [hkeys2] using hkeys⟩
        | some b =>
          have hb : beginOf raw = some b := by simp [beginOf, h1, h2, h3]
          simp only [hb] at hn ⊢
          have hstep := splitStep_begin st raw b h1 h2 h3
          have hk : hasKey b st.store = false := by
            rw [hasKey_false_iff]
            intro hmem
            rw [List.nodup_append] at hn
            exact hn.2.2 hmem (by simp)
          rw [if_neg (by simp [hk])] at hstep
          have hn2 : ((st.store.map Prod.fst ++ [b]) ++ Src.beginsOf ls).Nodup := by
            simpa [List.append_assoc] using hn
          by_cases he : Src.isEndL (pyStrip raw) = true
          · rw [if_pos he] at hstep
            have hinv2 : blockInv ⟨st.store ++ [(b, [])], none⟩ := by
              intro b2 hb2; simp at hb2
            obtain ⟨st2, hrun, hkeys⟩ := ih ⟨st.store ++ [(b, [])], none⟩ hinv2
              (by simpa using hn2)
            refine ⟨st2, by rw [splitRun_cons_ok ls hstep, hrun], ?_⟩
            simp only [List.map_append] at hkeys
            simpa [List.append_assoc] using hkeys
          · rw [if_neg he] at hstep
            have hinv2 : blockInv ⟨st.store ++ [(b, [pyStrip raw])], some b⟩ := by
              intro b2 hb2
              simp only at hb2
              cases hb2
              simp [hasKey_append, hasKey]
            obtain ⟨st2, hrun, hkeys⟩ := ih ⟨st.store ++ [(b, [pyStrip raw])], some b⟩ hinv2
              (by simpa using hn2)
            refine ⟨st2, by rw [splitRun_cons_ok ls hstep, hrun], ?_⟩
            simp only [List.map_append] at hkeys
            simpa [List.append_assoc] using hkeys

theorem splitRun_error_of_dup (lines : List Line) (st : Src.SplitSt)
    (hinv : blockInv st) (hnst : (st.store.map Prod.fst).Nodup)
    (hn : ¬ (st.store.map Prod.fst ++ Src.beginsOf lines).Nodup) :
    ∃ b, Src.splitRun st lines = .error (.dupBlock b) := by
  induction lines generalizing st with
  | nil => simp [Src.beginsOf, hnst] at hn
  | cons raw ls ih =>
    rw [beginsOf_cons] at hn
    cases h1 : (pyStrip raw).isEmpty with
    | true =>
      have hb : beginOf raw = none := by simp [beginOf, h1]
      simp only [hb] at hn
      obtain ⟨b, hrun⟩ := ih st hinv hnst hn
      exact ⟨b, by rw [splitRun_cons_ok ls (splitStep_skip_empty st raw h1), hrun]⟩
    | false =>
      cases h2 : ((pyStrip raw).head? == some '[' && (pyStrip raw).getLast? == some ']') with
      | true =>
        have hb : beginOf raw = none := by simp [beginOf, h1, h2]
        simp only [hb] at hn
        obtain ⟨b, hrun⟩ := ih st hinv hnst hn
        exact ⟨b, by rw [splitRun_cons_ok ls (splitStep_skip_comment st raw h1 h2), hrun]⟩
      | false =>
        cases h3 : scanBegin (pyLower (pyStrip raw)) with
        | none =>
          have hb : beginOf raw = none := by simp [beginOf, h1, h2, h3]
          simp only [hb] at hn
          have hstep := splitStep_nobegin st raw h1 h2 h3
          by_cases he : Src.isEndL (pyStrip raw) = true
          · rw [if_pos he] at hstep
            have hinv2 : blockInv ⟨st.store, none⟩ := by intro b hb2; simp at hb2
            obtain ⟨b, hrun⟩ := ih ⟨st.store, none⟩ hinv2 hnst hn
            exact ⟨b, by rw [splitRun_cons_ok ls hstep, hrun]⟩
          · rw [if_neg he] at hstep
            cases hblk : st.block with
            | none =>
              rw [hblk] at hstep
              obtain ⟨b, hrun⟩ := ih st hinv hnst hn
              exact ⟨b, by rw [splitRun_cons_ok ls hstep, hrun]⟩
            | some b =>
              rw [hblk] at hstep
              have hk := hinv b hblk
              have hkeys2 : (appendTo b (pyStrip raw) st.store).map Prod.fst =
                  st.store.map Prod.fst := keys_appendTo_of_hasKey _ _ _ hk
              have hinv2 : blockInv ⟨appendTo b (pyStrip raw) st.store, some b⟩ := by
                intro b2 hb2
                simp only at hb2
                cases hb2
                exact hasKey_appendTo_self _ _ _
              obtain ⟨b2, hrun⟩ := ih ⟨appendTo b (pyStrip raw) st.store, some b⟩ hinv2
                (by simpa [hkeys2]) (by simpa [hkeys2])
              exact ⟨b2, by rw [splitRun_cons_ok ls hstep, hrun]⟩
        | some b =>
          have hb : beginOf raw = some b := by simp [beginOf, h1, h2, h3]
          simp only [hb] at hn
          have hstep := splitStep_begin st raw b h1 h2 h3
          cases hk : hasKey b st.store with
          | true =>
            rw [if_pos hk] at hstep
            exact ⟨b, splitRun_cons_err ls hstep⟩
          | false =>
            rw [if_neg (by simp [hk])] at hstep
            have hnst2 : (st.store.map Prod.fst ++ [b]).Nodup := by
              rw [List.nodup_append]
              refine ⟨hnst, List.nodup_singleton b, ?_⟩
              intro x hx hxb
              simp only [List.mem_singleton] at hxb
              subst hxb
              rw [hasKey_false_iff] at hk
              exact hk hx
            have hn2 : ¬ ((st.store.map Prod.fst ++ [b]) ++ Src.beginsOf ls).Nodup := by
              intro hc
              exact hn (by simpa [List.append_assoc] using hc)
            by_cases he : Src.isEndL (pyStrip raw) = true
            · rw [if_pos he] at hstep
              have hinv2 : blockInv ⟨st.store ++ [(b, [])], none⟩ := by
                intro b2 hb2; simp at hb2
              obtain ⟨b2, hrun⟩ := ih ⟨st.store ++ [(b, [])], none⟩ hinv2
                (by simpa using hnst2) (by simpa using hn2)
              exact ⟨b2, by rw [splitRun_cons_ok ls hstep, hrun]⟩
            · rw [if_neg he] at hstep
              have hinv2 : blockInv ⟨st.store ++ [(b, [pyStrip raw])], some b⟩ := by
                intro b2 hb2
                simp only at hb2
                cases hb2
                simp [hasKey_append, hasKey]
              obtain ⟨b2, hrun⟩ := ih ⟨st.store ++ [(b, [pyStrip raw])], some b⟩ hinv2
                (by simpa using hnst2) (by simpa using hn2)
              exact ⟨b2, by rw [splitRun_cons_ok ls hstep, hrun]⟩

end SplitterLemmas


section DataStepLemmas

theorem dataRun_cons_ok {s s2 : Src.Data} {L : Line} (ls : List Line)
    (h : Src.dataStep s L = .ok s2) :
    Src.dataRun s (L :: ls) = Src.dataRun s2 ls := by
  simp [Src.dataRun, h]

theorem dataStep_matrix_mode (s : Src.Data) (L : Line)
    (hm : s.seen_matrix = some true)
    (h1 : pfx (strL "dimensions ") (pyLower L) = false)
    (h2 : pfx (strL "format ") (pyLower L) = false)
    (h3 : pfx (strL "matrix") (pyLower L) = false)
    (h4 : matchBegin L = false)
    (h5 : containsSub (strL "charstatelabels") (pyLower L) = false) :
    (splitFirstSpace L = none → Src.dataStep s L = .ok s) ∧
    (∀ a b, splitFirstSpace L = some (a, b) →
      Src.dataStep s L = .ok (Src.registerSite s (pyStrip a) (pyStrip b))) := by
  constructor
  · intro hsp
    unfold Src.dataStep
    simp only [h1, h2, h3, h4, h5, hm, Bool.false_eq_true, if_false, hsp]
  · intro a b hsp
    unfold Src.dataStep
    simp only [h1, h2, h3, h4, h5, hm, Bool.false_eq_true, if_false, hsp]

theorem splitFirstSpace_append (t f : Line) (h : ' ' ∉ t) :
    splitFirstSpace (t ++ ' ' :: f) = some (t, f) := by
  induction t with
  | nil => simp [splitFirstSpace]
  | cons c r ih =>
    simp only [List.mem_cons, not_or] at h
    have hcb : (c == ' ') = false := by
      rw [beq_eq_false_iff_ne]
      exact fun e => h.1 e.symm
    simp [splitFirstSpace, hcb, ih h.2]

end DataStepLemmas

section CommentStripper

theorem stripGo_spec (l : Line) (hn : '\n' ∉ l) :
    (okAux l 0 = true → Src.stripGo l none = specStripAux l 0) ∧
    (∀ buf, okAux l 1 = true → Src.stripGo l (some buf) = specStripAux l 1) := by
  induction l with
  | nil =>
    constructor
    · intro _; rfl
    · intro buf h; simp [okAux] at h
  | cons c r ih =>
    have hnr : '\n' ∉ r := fun h => hn (List.mem_cons_of_mem _ h)
    have hc : c ≠ '\n' := fun h => hn (h ▸ List.mem_cons_self _ _)
    have hcb : (c == '\n') = false := by rw [beq_eq_false_iff_ne]; exact hc
    obtain ⟨ih0, ih1⟩ := ih hnr
    constructor
    · intro h
      by_cases hb : c = '['
      · subst hb
        simp only [okAux, if_pos] at h
        simp only [Src.stripGo, specStripAux, if_pos]
        simp only [beq_self_eq_true, if_true]
        exact ih1 ['['] (by simpa using h)
      · have hb' : (c == '[') = false := by rw [beq_eq_false_iff_ne]; exact hb
        by_cases hb2 : c = ']'
        · subst hb2
          simp [okAux] at h
        · have hb2' : (c == ']') = false := by rw [beq_eq_false_iff_ne]; exact hb2
          have h' : okAux r 0 = true := by simpa [okAux, hb', hb2'] using h
          simp [Src.stripGo, specStripAux, hb', hb2', ih0 h']
    · intro buf h
      by_cases hb : c = ']'
      · subst hb
        have h' : okAux r 0 = true := by simpa [okAux] using h
        simp [Src.stripGo, specStripAux, ih0 h']
      · have hb' : (c == ']') = false := by rw [beq_eq_false_iff_ne]; exact hb
        by_cases hb2 : c = '['
        · subst hb2
          simp [okAux] at h
        · have hb2' : (c == '[') = false := by rw [beq_eq_false_iff_ne]; exact hb2
          have h' : okAux r 1 = true := by simpa [okAux, hb', hb2'] using h
          simp [Src.stripGo, specStripAux, hb', hb2', hcb, ih1 (c :: buf) h']

end CommentStripper

section ClaimTheorems

/-- C2: for every input in which the same block name (case-insensitively) is
opened twice by a begin line, the parse of Nexus.read_file aborts with the
duplicate-block error and no document is produced. -/
theorem duplicate_block_aborts_parse (lines : List Line)
    (h : ¬ (Src.beginsOf lines).Nodup) :
    ∃ b, Src.nexus lines = .error (.dupBlock b) := by
  obtain ⟨b, hrun⟩ := splitRun_error_of_dup lines ⟨[], none⟩
    (by intro b hb; simp at hb) (by simp) (by simpa using h)
  refine ⟨b, ?_⟩
  simp [Src.nexus, Src.split, hrun, Except.map, Src.doBlocks]

theorem duplicate_block_aborts_parse_witness :
    ∃ b, Src.nexus (["begin data;", "end;", "begin data;", "end;"].map String.toList) =
      .error (.dupBlock b) :=
  duplicate_block_aborts_parse _ (by decide)

/-- C9 counterexample: an input whose data block is opened and never closed
parses to a normal document with the unterminated block present; no error is
reported, contradicting the claim that an unterminated block is an error. -/
theorem unterminated_block_no_error :
    Src.nexus (["begin data;", "dimensions ntax=1 nchar=1;", "matrix", "A 1"].map
        String.toList) =
      .ok [(strL "data",
        .data ⟨some true, [strL "A"], 1, 1, [], [(strL "A", [strL "1"])]⟩)] := by
  decide

/-- C9 amended: on every finite input whose begin lines open pairwise
distinct block names, the block-splitting loop of read_file terminates with
a normal store that contains every opened block, an unterminated one
included; reaching end of input without a closing line is not reported. -/
theorem split_total_no_unterminated_error (lines : List Line)
    (h : (Src.beginsOf lines).Nodup) :
    ∃ st, Src.split lines = .ok st ∧ st.map Prod.fst = Src.beginsOf lines := by
  obtain ⟨st2, hrun, hkeys⟩ := splitRun_ok_of_nodup lines ⟨[], none⟩
    (by intro b hb; simp at hb) (by simpa using h)
  exact ⟨st2.store, by simp [Src.split, hrun, Except.map], by simpa using hkeys⟩

theorem split_total_no_unterminated_error_witness :
    ∃ st, Src.split (["begin data;", "A 1"].map String.toList) = .ok st ∧
      st.map Prod.fst = Src.beginsOf (["begin data;", "A 1"].map String.toList) :=
  split_total_no_unterminated_error _ (by decide)

/-- C10 amended: a non-blank, non-comment line matching an end pattern
closes the open block and is not stored; a fresh begin line that does not
itself match an end pattern is stored as the first raw line of its block;
but a begin line that also contains "end;" case-insensitively (for instance
a block name ending in "end") opens the block and immediately closes it, so
the block stores no lines at all. -/
theorem end_and_begin_line_handling (st : Src.SplitSt) (raw : Line)
    (h1 : (pyStrip raw).isEmpty = false)
    (h2 : ((pyStrip raw).head? == some '[' && (pyStrip raw).getLast? == some ']') = false) :
    (scanBegin (pyLower (pyStrip raw)) = none → Src.isEndL (pyStrip raw) = true →
      Src.splitStep st raw = .ok ⟨st.store, none⟩) ∧
    (∀ b, scanBegin (pyLower (pyStrip raw)) = some b → hasKey b st.store = false →
      Src.isEndL (pyStrip raw) = false →
      Src.splitStep st raw = .ok ⟨st.store ++ [(b, [pyStrip raw])], some b⟩) ∧
    (∀ b, scanBegin (pyLower (pyStrip raw)) = some b → hasKey b st.store = false →
      Src.isEndL (pyStrip raw) = true →
      Src.splitStep st raw = .ok ⟨st.store ++ [(b, [])], none⟩) := by
  refine ⟨?_, ?_, ?_⟩
  · intro h3 he
    rw [splitStep_nobegin st raw h1 h2 h3, if_pos he]
  · intro b h3 hk he
    rw [splitStep_begin st raw b h1 h2 h3, if_neg (by simp [hk]), if_neg (by simp [he])]
  · intro b h3 hk he
    rw [splitStep_begin st raw b h1 h2 h3, if_neg (by simp [hk]), if_pos he]

theorem end_and_begin_line_handling_witness :
    Src.splitStep ⟨[], none⟩ (strL "begin legend;") = .ok ⟨[(strL "legend", [])], none⟩ :=
  (end_and_begin_line_handling ⟨[], none⟩ (strL "begin legend;")
      (by decide) (by decide)).2.2 (strL "legend") (by decide) (by decide) (by decide)

/-- C10 counterexample: the line "begin legend;" contains "end;" as a
substring, so the opened block legend is immediately closed and its opening
line is not stored, against the claim that the opening begin line is always
stored as the first raw line of the block. -/
theorem begin_legend_line_not_stored :
    Src.split (["begin legend;", "x 1", ";"].map String.toList) =
      .ok [(strL "legend", [])] ∧
    ∀ rest, Src.split (["begin legend;", "x 1", ";"].map String.toList) ≠
      .ok [(strL "legend", strL "begin legend;" :: rest)] := by
  have h1 : Src.split (["begin legend;", "x 1", ";"].map String.toList) =
      .ok [(strL "legend", [])] := by decide
  refine ⟨h1, ?_⟩
  intro rest h
  rw [h1] at h
  simp [strL] at h

/-- C3 amended: in matrix mode, a line that passes the keyword branches is
split at its first space character into a taxon part and a sites part, each
then stripped of surrounding whitespace; the taxon is registered in
first-seen order and the fragment appended; a line with no space character
at all (a bare semicolon, or a tab-separated row) is skipped without
error. -/
theorem matrix_line_split_on_first_space (s : Src.Data) (L : Line)
    (hm : s.seen_matrix = some true) (hp : plainMatrixLine L) :
    (splitFirstSpace L = none → Src.dataStep s L = .ok s) ∧
    (∀ a b, splitFirstSpace L = some (a, b) →
      Src.dataStep s L = .ok (Src.registerSite s (pyStrip a) (pyStrip b))) := by
  obtain ⟨hp1, hp2, hp3, hp4, hp5⟩ := hp
  exact dataStep_matrix_mode s L hm hp1 hp2 hp3 hp4 hp5

theorem matrix_line_split_on_first_space_witness :
    Src.dataStep ⟨some true, [], 0, 0, [], []⟩ (strL "Betty 10") =
      .ok ⟨some true, [strL "Betty"], 0, 0, [], [(strL "Betty", [strL "10"])]⟩ := by
  have h := (matrix_line_split_on_first_space ⟨some true, [], 0, 0, [], []⟩
      (strL "Betty 10") rfl (by decide)).2 (strL "Betty") (strL "10") (by decide)
  exact h.trans (by decide)

/-- C3 counterexample: a matrix row whose taxon and sites are separated only
by a tab character has no space to split on, so DataHandler.parse skips it
and registers no taxon, against the claim that any whitespace run separates
taxon and sites. -/
theorem tab_separated_matrix_line_skipped :
    Src.dataRun Src.initData [strL "matrix", strL "A\t01"] =
      .ok ⟨some true, [], 0, 0, [], []⟩ ∧
    (Src.dataRun Src.initData [strL "matrix", strL "A\t01"]).map Src.Data.taxa ≠
      .ok [strL "A"] := by
  constructor
  · decide
  · decide

/-- C5: two matrix passes for the same taxon append their fragments in pass
order, and the concatenation of the stored fragments is the full sequence. -/
theorem interleave_fragments_concatenate (t f1 f2 : Line)
    (ht : ' ' ∉ t)
    (hts : pyStrip t = t) (hf1 : pyStrip f1 = f1) (hf2 : pyStrip f2 = f2)
    (hp1 : plainMatrixLine (t ++ ' ' :: f1)) (hp2 : plainMatrixLine (t ++ ' ' :: f2)) :
    Src.dataRun Src.initData
        [strL "matrix", t ++ ' ' :: f1, strL "matrix", t ++ ' ' :: f2] =
      .ok ⟨some true, [t], 0, 0, [], [(t, [f1, f2])]⟩ ∧
    (Src.dataRun Src.initData
        [strL "matrix", t ++ ' ' :: f1, strL "matrix", t ++ ' ' :: f2]).map
      (fun s => (alookup t s.matrix).map List.flatten) = .ok (some (f1 ++ f2)) := by
  have step0 : Src.dataStep Src.initData (strL "matrix") =
      .ok ⟨some true, [], 0, 0, [], []⟩ := by decide
  obtain ⟨hp11, hp12, hp13, hp14, hp15⟩ := hp1
  obtain ⟨hp21, hp22, hp23, hp24, hp25⟩ := hp2
  have step1 := (dataStep_matrix_mode ⟨some true, [], 0, 0, [], []⟩ (t ++ ' ' :: f1)
    rfl hp11 hp12 hp13 hp14 hp15).2 t f1 (splitFirstSpace_append t f1 ht)
  have hreg1 : Src.registerSite ⟨some true, [], 0, 0, [], []⟩ (pyStrip t) (pyStrip f1) =
      ⟨some true, [t], 0, 0, [], [(t, [f1])]⟩ := by
    rw [hts, hf1]
    simp [Src.registerSite, appendTo]
  rw [hreg1] at step1
  have step2 : Src.dataStep ⟨some true, [t], 0, 0, [], [(t, [f1])]⟩ (strL "matrix") =
      .ok ⟨some true, [t], 0, 0, [], [(t, [f1])]⟩ := rfl
  have step3 := (dataStep_matrix_mode ⟨some true, [t], 0, 0, [], [(t, [f1])]⟩
    (t ++ ' ' :: f2) rfl hp21 hp22 hp23 hp24 hp25).2 t f2 (splitFirstSpace_append t f2 ht)
  have hreg2 : Src.registerSite ⟨some true, [t], 0, 0, [], [(t, [f1])]⟩
      (pyStrip t) (pyStrip f2) = ⟨some true, [t], 0, 0, [], [(t, [f1, f2])]⟩ := by
    rw [hts, hf2]
    simp [Src.registerSite, appendTo]
  rw [hreg2] at step3
  have hrun : Src.dataRun Src.initData
      [strL "matrix", t ++ ' ' :: f1, strL "matrix", t ++ ' ' :: f2] =
      .ok ⟨some true, [t], 0, 0, [], [(t, [f1, f2])]⟩ := by
    rw [dataRun_cons_ok _ step0, dataRun_cons_ok _ step1,
      dataRun_cons_ok _ step2, dataRun_cons_ok _ step3]
    rfl
  refine ⟨hrun, ?_⟩
  rw [hrun]
  simp [alookup, Except.map]

theorem interleave_fragments_concatenate_witness :
    Src.dataRun Src.initData
        [strL "matrix", strL "X" ++ ' ' :: strL "01", strL "matrix",
          strL "X" ++ ' ' :: strL "23"] =
      .ok ⟨some true, [strL "X"], 0, 0, [], [(strL "X", [strL "01", strL "23"])]⟩ ∧
    Src.dataRun Src.initData
        [strL "dimensions ntax=1 nchar=4;", strL "matrix", strL "X 01",
          strL "matrix", strL "X 23"] =
      .ok ⟨some true, [strL "X"], 1, 4, [], [(strL "X", [strL "01", strL "23"])]⟩ := by
  constructor
  · exact (interleave_fragments_concatenate (strL "X") (strL "01") (strL "23")
      (by decide) (by decide) (by decide) (by decide) (by decide) (by decide)).1
  · decide

/-- C4: the repository tests (src/nexus/test/test_regressions.py, class
Test_DataHandler_Regression_Mesquite) require a data block with TITLE and
LINK declaration lines to parse with both lines kept in attributes; the code
in src/nexus.py instead reads the unassigned local seen_matrix on the first
TITLE line and raises UnboundLocalError, and its DataHandler has no
attributes field at all. -/
theorem title_line_raises_unbound_local :
    Src.nexus (["#NEXUS", "Begin data;", "TITLE Untitled_Block_of_Taxa;",
      "LINK Taxa = Untitled_Block_of_Taxa;", "Dimensions ntax=2 nchar=2;",
      "Format datatype=standard gap=- symbols=\"01\";", "Matrix",
      "Harry              00", "Simon              01", ";", "End;"].map
        String.toList) =
      .error .unboundLocal := by
  decide

/-- C6: on a single line whose bracket spans are properly paired and not
nested, remove_comments returns exactly the line with every bracket span
removed and all other characters preserved in order. -/
theorem remove_comments_removes_nonnested_spans (l : Line)
    (h1 : okLine l = true) (h2 : '\n' ∉ l) :
    Src.remove_comments l = specRemoveComments l :=
  (stripGo_spec l h2).1 h1

theorem remove_comments_removes_nonnested_spans_witness :
    Src.remove_comments (strL "Hello [world]") = strL "Hello " ∧
    Src.remove_comments (strL "He[bite]ll[me]o") = strL "Hello" := by
  constructor
  · exact (remove_comments_removes_nonnested_spans (strL "Hello [world]")
      (by decide) (by decide)).trans (by decide)
  · exact (remove_comments_removes_nonnested_spans (strL "He[bite]ll[me]o")
      (by decide) (by decide)).trans (by decide)

end ClaimTheorems

section ClassStateClaim

/-- C8: blocks is a class attribute of Nexus shared by every instance, so
parsing a second file through a second instance mutates the dictionary the
first instance reads: after the second parse the first document suddenly
contains the second file's trees block.  The repository specification and
its later tests require each parsed document to be owned exclusively by its
caller, so this sharing is a defect of src/nexus.py. -/
theorem second_parse_mutates_first_instance_blocks :
    ∃ b1 b2,
      Src.nexusClass []
          (["begin data;", "dimensions ntax=1 nchar=1;", "matrix", "A 1",
            "end;"].map String.toList) = .ok b1 ∧
      Src.nexusClass b1
          (["begin trees;", "tree t = (A);", "end;"].map String.toList) = .ok b2 ∧
      hasKey (strL "trees") b1 = false ∧
      hasKey (strL "trees") b2 = true ∧
      b1 ≠ b2 := by
  refine ⟨[(strL "data",
      .data ⟨some true, [strL "A"], 1, 1, [], [(strL "A", [strL "1"])]⟩)],
    [(strL "data",
      .data ⟨some true, [strL "A"], 1, 1, [], [(strL "A", [strL "1"])]⟩),
     (strL "trees", .trees [[strL "begin trees;", strL "tree t = (A);"]])],
    by decide, by decide, by decide, by decide, by decide⟩

end ClassStateClaim



section DetranslateClaim

/-- C7: detranslation of a trees block is idempotent: the second call sees
been_detranslated set and changes nothing, so no label is substituted
twice. -/
theorem detranslate_idempotent (s : Spec.TreesS) :
    Spec.detranslate (Spec.detranslate s) = Spec.detranslate s := by
  unfold Spec.detranslate
  by_cases h : s.been_detranslated
  · simp [h]
  · simp [h]

end DetranslateClaim

section DigitLemmas

theorem charToDigit_digitToChar (d : Nat) (h : d < 10) :
    charToDigit (digitToChar d) = some d := by
  interval_cases d <;> rfl

theorem isDigitC_digitToChar (d : Nat) (h : d < 10) :
    isDigitC (digitToChar d) = true := by
  interval_cases d <;> rfl

theorem toLower_digitToChar (d : Nat) (h : d < 10) :
    (digitToChar d).toLower = digitToChar d := by
  interval_cases d <;> decide

theorem isDigitC_all_natDigitsAux (fuel n : Nat) (h : n < fuel) :
    ∀ c ∈ natDigitsAux fuel n, isDigitC c = true := by
  induction fuel generalizing n with
  | zero => omega
  | succ fuel ih =>
    intro c hc
    unfold natDigitsAux at hc
    by_cases h10 : n < 10
    · rw [if_pos h10] at hc
      simp only [List.mem_singleton] at hc
      subst hc
      exact isDigitC_digitToChar n h10
    · rw [if_neg h10] at hc
      rcases List.mem_append.mp hc with h1 | h1
      · exact ih (n / 10) (by omega) c h1
      · simp only [List.mem_singleton] at h1
        subst h1
        exact isDigitC_digitToChar (n % 10) (Nat.mod_lt n (by omega))

theorem natDigitsAux_ne_nil (fuel n : Nat) (h : n < fuel) :
    natDigitsAux fuel n ≠ [] := by
  cases fuel with
  | zero => omega
  | succ fuel =>
    unfold natDigitsAux
    by_cases h10 : n < 10
    · simp [h10]
    · rw [if_neg h10]
      simp

theorem readGo_append (acc : Nat) (a b : Line) :
    readGo acc (a ++ b) = readGo (readGo acc a) b := by
  induction a generalizing acc with
  | nil => rfl
  | cons c r ih => simp [readGo, ih]

theorem readGo_natDigitsAux (fuel n acc : Nat) (h : n < fuel) :
    readGo acc (natDigitsAux fuel n) =
      acc * 10 ^ (natDigitsAux fuel n).length + n := by
  induction fuel generalizing n acc with
  | zero => omega
  | succ fuel ih =>
    unfold natDigitsAux
    by_cases h10 : n < 10
    · rw [if_pos h10]
      simp [readGo, charToDigit_digitToChar n h10]
    · rw [if_neg h10]
      have hdiv : n / 10 < fuel := by
        have := Nat.div_lt_self (by omega : 0 < n) (by omega : 1 < 10)
        omega
      rw [readGo_append, ih (n / 10) acc hdiv]
      have hmod : charToDigit (digitToChar (n % 10)) = some (n % 10) :=
        charToDigit_digitToChar _ (Nat.mod_lt n (by omega))
      simp only [readGo, hmod, Option.getD_some, List.length_append,
        List.length_singleton]
      rw [pow_succ]
      have := Nat.div_add_mod n 10
      ring_nf
      omega

theorem readDigits_natDigits (n : Nat) : readDigits (natDigits n) = n := by
  unfold readDigits natDigits
  rw [readGo_natDigitsAux (n + 1) n 0 (by omega)]
  simp

theorem isDigitC_all_natDigits (n : Nat) : ∀ c ∈ natDigits n, isDigitC c = true :=
  isDigitC_all_natDigitsAux (n + 1) n (by omega)

theorem natDigits_ne_nil (n : Nat) : natDigits n ≠ [] :=
  natDigitsAux_ne_nil (n + 1) n (by omega)

theorem mapLower_self (l : Line) (h : ∀ c ∈ l, c.toLower = c) : pyLower l = l := by
  induction l with
  | nil => rfl
  | cons c r ih =>
    simp only [pyLower, List.map_cons]
    rw [h c (by simp)]
    have := ih (fun c2 hc2 => h c2 (by simp [hc2]))
    simp only [pyLower] at this
    rw [this]

theorem toLower_of_isDigitC (c : Char) (h : isDigitC c = true) : c.toLower = c := by
  unfold isDigitC charToDigit at h
  split_ifs at h with h0 h1 h2 h3 h4 h5 h6 h7 h8 h9 <;>
    first
      | (subst h0; decide) | (subst h1; decide) | (subst h2; decide)
      | (subst h3; decide) | (subst h4; decide) | (subst h5; decide)
      | (subst h6; decide) | (subst h7; decide) | (subst h8; decide)
      | (subst h9; decide) | simp at h

theorem pyLower_natDigits (n : Nat) : pyLower (natDigits n) = natDigits n :=
  mapLower_self _ (fun c hc => toLower_of_isDigitC c (isDigitC_all_natDigits n c hc))

theorem beq_false_of_isDigitC (x c : Char) (hx : isDigitC x = false)
    (h : isDigitC c = true) : (x == c) = false := by
  rw [beq_eq_false_iff_ne]
  intro he
  rw [he, h] at hx
  simp at hx

end DigitLemmas

section TakeDropLemmas

theorem takeWhile_append_all (p : Char → Bool) (a rest : Line)
    (ha : ∀ c ∈ a, p c = true) :
    List.takeWhile p (a ++ rest) = a ++ List.takeWhile p rest := by
  induction a with
  | nil => rfl
  | cons c r ih =>
    simp only [List.cons_append, List.takeWhile_cons, ha c (by simp)]
    simp [ih (fun c2 hc2 => ha c2 (by simp [hc2]))]

theorem takeWhile_cons_neg (p : Char → Bool) (c : Char) (r : Line)
    (h : p c = false) : List.takeWhile p (c :: r) = [] := by
  simp [List.takeWhile_cons, h]

theorem dropWhile_cons_neg (p : Char → Bool) (c : Char) (r : Line)
    (h : p c = false) : List.dropWhile p (c :: r) = c :: r := by
  simp [List.dropWhile_cons, h]

end TakeDropLemmas

section PfxLemmas

theorem pfx_append_self (p x : Line) : pfx p (p ++ x) = true := by
  induction p with
  | nil => rfl
  | cons c r ih => simp [pfx, ih]

theorem pfx_pfx (p q l : Line) (hp : pfx p l = true) (hq : pfx q l = true)
    (hlen : p.length ≤ q.length) : pfx p q = true := by
  induction p generalizing q l with
  | nil => rfl
  | cons a as ih =>
    cases l with
    | nil => simp [pfx] at hp
    | cons b bs =>
      cases q with
      | nil => simp at hlen
      | cons c cs =>
        simp only [pfx, Bool.and_eq_true, beq_iff_eq] at hp hq ⊢
        refine ⟨by rw [hp.1, hq.1], ?_⟩
        exact ih cs bs hp.2 hq.2 (by simpa using hlen)

end PfxLemmas

section ScanNatLemmas

theorem scanNat_skip_head (k : Line) (c : Char) (l : Line)
    (hc : pfx k (c :: l) = false) : scanNat k (c :: l) = scanNat k l := by
  simp [scanNat, hc]

theorem scanNat_skip_all (kh : Char) (kt : Line) (dl rest : Line)
    (hdl : ∀ c ∈ dl, (kh == c) = false) :
    scanNat (kh :: kt) (dl ++ rest) = scanNat (kh :: kt) rest := by
  induction dl with
  | nil => rfl
  | cons c r ih =>
    have hpfx : pfx (kh :: kt) (c :: (r ++ rest)) = false := by
      simp [pfx, hdl c (by simp)]
    rw [List.cons_append, scanNat_skip_head _ _ _ hpfx]
    exact ih (fun c2 hc2 => hdl c2 (by simp [hc2]))

theorem scanNat_found (k tail : Line) (hk : k ≠ [])
    (h : (tail.takeWhile isDigitC).isEmpty = false) :
    scanNat k (k ++ tail) = some (readDigits (tail.takeWhile isDigitC)) := by
  cases k with
  | nil => exact absurd rfl hk
  | cons c ks =>
    have h1 : pfx (c :: ks) (c :: (ks ++ tail)) = true := by
      rw [← List.cons_append]; exact pfx_append_self _ _
    have h2 : (c :: (ks ++ tail)).drop (c :: ks).length = tail := by
      rw [← List.cons_append]; exact List.drop_left _ _
    rw [List.cons_append]
    simp only [scanNat, h1, h2, h]
    simp

end ScanNatLemmas

section DimsLineLemmas

theorem isEmpty_false_of_ne_nil (l : Line) (h : l ≠ []) : l.isEmpty = false := by
  cases l with
  | nil => exact absurd rfl h
  | cons a r => rfl

theorem takeWhile_digits_semi (n : Nat) :
    (natDigits n ++ [';']).takeWhile isDigitC = natDigits n := by
  rw [takeWhile_append_all _ _ _ (isDigitC_all_natDigits n)]
  simp [takeWhile_cons_neg isDigitC ';' [] (by decide)]

theorem takeWhile_digits_space (n : Nat) (rest : Line) :
    (natDigits n ++ (' ' :: rest)).takeWhile isDigitC = natDigits n := by
  rw [takeWhile_append_all _ _ _ (isDigitC_all_natDigits n)]
  simp [takeWhile_cons_neg isDigitC ' ' rest (by decide)]

theorem scanNat_ntax (nt nc : Nat) :
    scanNat (strL "ntax=")
      (strL "dimensions ntax=" ++
        (natDigits nt ++ (strL " nchar=" ++ (natDigits nc ++ [';'])))) = some nt := by
  have hskip : scanNat (strL "ntax=")
      (strL "dimensions ntax=" ++
        (natDigits nt ++ (strL " nchar=" ++ (natDigits nc ++ [';'])))) =
      scanNat (strL "ntax=")
        (strL "ntax=" ++ (natDigits nt ++ (strL " nchar=" ++ (natDigits nc ++ [';'])))) := rfl
  rw [hskip]
  have htail : ((natDigits nt ++ (strL " nchar=" ++ (natDigits nc ++ [';']))).takeWhile
      isDigitC) = natDigits nt := by
    have e2 : strL " nchar=" ++ (natDigits nc ++ [';']) =
        ' ' :: (strL "nchar=" ++ (natDigits nc ++ [';'])) := rfl
    rw [e2, takeWhile_digits_space]
  rw [scanNat_found _ _ (by decide)
    (by rw [htail]; exact isEmpty_false_of_ne_nil _ (natDigits_ne_nil nt))]
  rw [htail, readDigits_natDigits]

theorem scanNat_nchar (nt nc : Nat) :
    scanNat (strL "nchar=")
      (strL "dimensions ntax=" ++
        (natDigits nt ++ (strL " nchar=" ++ (natDigits nc ++ [';'])))) = some nc := by
  have hskip1 : scanNat (strL "nchar=")
      (strL "dimensions ntax=" ++
        (natDigits nt ++ (strL " nchar=" ++ (natDigits nc ++ [';'])))) =
      scanNat ('n' :: strL "char=")
        (natDigits nt ++ (strL " nchar=" ++ (natDigits nc ++ [';']))) := rfl
  rw [hskip1]
  rw [scanNat_skip_all 'n' (strL "char=") (natDigits nt)
    (strL " nchar=" ++ (natDigits nc ++ [';']))
    (fun c hc => beq_false_of_isDigitC 'n' c (by decide) (isDigitC_all_natDigits nt c hc))]
  have hskip2 : scanNat ('n' :: strL "char=") (strL " nchar=" ++ (natDigits nc ++ [';'])) =
      scanNat (strL "nchar=") (strL "nchar=" ++ (natDigits nc ++ [';'])) := rfl
  rw [hskip2]
  rw [scanNat_found _ _ (by decide)
    (by rw [takeWhile_digits_semi]; exact isEmpty_false_of_ne_nil _ (natDigits_ne_nil nc))]
  rw [takeWhile_digits_semi, readDigits_natDigits]

end DimsLineLemmas

section StripLemmas

theorem pyStrip_eq_self (l : Line)
    (h1 : ∀ c, l.head? = some c → isSpaceChar c = false)
    (h2 : ∀ c, l.getLast? = some c → isSpaceChar c = false) : pyStrip l = l := by
  cases l with
  | nil => rfl
  | cons a r =>
    unfold pyStrip
    have ha : isSpaceChar a = false := h1 a rfl
    rw [dropWhile_cons_neg _ _ _ ha]
    cases hrev : (a :: r).reverse with
    | nil => simp at hrev
    | cons b rb =>
      have hlast : (a :: r).getLast? = some b := by
        rw [← List.head?_reverse, hrev]; rfl
      rw [dropWhile_cons_neg _ _ _ (h2 b hlast), ← hrev, List.reverse_reverse]

end StripLemmas

section SeparatorLemmas

theorem beq_symm_false (a b : Char) (h : (a == b) = false) : (b == a) = false := by
  rw [beq_eq_false_iff_ne] at h ⊢
  exact fun e => h e.symm

theorem char_contains_false (l : Line) (c : Char)
    (h : ∀ c2 ∈ l, (c2 == c) = false) : l.contains c = false := by
  induction l with
  | nil => rfl
  | cons x xs ih =>
    have hx : x ≠ c := by
      have := h x (by simp)
      rwa [beq_eq_false_iff_ne] at this
    have hxs := ih (fun c2 hc2 => h c2 (by simp [hc2]))
    simp only [List.contains_cons, Bool.or_eq_false_iff]
    constructor
    · rw [beq_eq_false_iff_ne]
      first
        | exact hx
        | exact fun e => hx e.symm
    · exact hxs

theorem char_contains_concat (l : Line) (c : Char) : (l ++ [c]).contains c = true := by
  induction l with
  | nil => simp
  | cons x xs ih =>
    simp only [List.cons_append, List.contains_cons, ih, Bool.or_true]

theorem getLast?_append_ne (l r : Line) (hr : r ≠ []) :
    (l ++ r).getLast? = r.getLast? := by
  rw [← List.head?_reverse, ← List.head?_reverse, List.reverse_append]
  cases hrv : r.reverse with
  | nil =>
    exact absurd (by simpa using congrArg List.reverse hrv) hr
  | cons a as => simp

theorem splitOnChar_no_sep (sep : Char) (l : Line)
    (h : ∀ c ∈ l, (c == sep) = false) : splitOnChar sep l = [l] := by
  induction l with
  | nil => rfl
  | cons c r ih =>
    rw [show splitOnChar sep (c :: r) =
      (if c == sep then [] :: splitOnChar sep r
       else match splitOnChar sep r with
         | [] => [[c]]
         | p :: ps => (c :: p) :: ps) from rfl]
    rw [if_neg (by simp [h c (by simp)])]
    rw [ih (fun c2 h2 => h c2 (by simp [h2]))]

theorem splitOnChar_append_sep (sep : Char) (l r : Line)
    (h : ∀ c ∈ l, (c == sep) = false) :
    splitOnChar sep (l ++ sep :: r) = l :: splitOnChar sep r := by
  induction l with
  | nil =>
    rw [List.nil_append]
    rw [show splitOnChar sep (sep :: r) =
      (if sep == sep then [] :: splitOnChar sep r
       else match splitOnChar sep r with
         | [] => [[sep]]
         | p :: ps => (sep :: p) :: ps) from rfl]
    rw [if_pos (by simp)]
  | cons c cs ih =>
    rw [List.cons_append]
    rw [show splitOnChar sep (c :: (cs ++ sep :: r)) =
      (if c == sep then [] :: splitOnChar sep (cs ++ sep :: r)
       else match splitOnChar sep (cs ++ sep :: r) with
         | [] => [[c]]
         | p :: ps => (c :: p) :: ps) from rfl]
    rw [if_neg (by simp [h c (by simp)])]
    rw [ih (fun c2 h2 => h c2 (by simp [h2]))]

theorem pyStrip_cons_space (X : Line)
    (h1 : ∀ c, X.head? = some c → isSpaceChar c = false)
    (h2 : ∀ c, X.getLast? = some c → isSpaceChar c = false) :
    pyStrip (' ' :: X) = X := by
  show ((List.dropWhile isSpaceChar (' ' :: X)).reverse.dropWhile isSpaceChar).reverse = X
  rw [List.dropWhile_cons, if_pos (show isSpaceChar ' ' = true from rfl)]
  exact pyStrip_eq_self X h1 h2

theorem head_notspace_of_all (t r : Line) (ht : t ≠ [])
    (h : ∀ c ∈ t, isSpaceChar c = false) :
    ∀ c, (t ++ r).head? = some c → isSpaceChar c = false := by
  cases t with
  | nil => exact absurd rfl ht
  | cons a as =>
    intro c hc
    simp only [List.cons_append, List.head?_cons, Option.some.injEq] at hc
    subst hc
    exact h a (by simp)

theorem headNotSpace_elim (l : Line) (h : Spec.headNotSpace l = true) :
    ∀ c, l.head? = some c → isSpaceChar c = false := by
  intro c hc
  unfold Spec.headNotSpace at h
  rw [hc] at h
  simpa using h

theorem lastNotSpace_elim (l : Line) (h : Spec.lastNotSpace l = true) :
    ∀ c, l.getLast? = some c → isSpaceChar c = false := by
  intro c hc
  unfold Spec.lastNotSpace at h
  rw [hc] at h
  simpa using h

theorem pairOfChunk_pair (lab tax : Line) (h1 : lab ≠ [])
    (h2 : ∀ c ∈ lab, isSpaceChar c = false) (h3 : tax ≠ [])
    (h4 : Spec.headNotSpace tax = true) (h5 : Spec.lastNotSpace tax = true) :
    Spec.pairOfChunk (lab ++ ' ' :: tax) = some (lab, tax) := by
  have hlastX : ∀ c, (lab ++ ' ' :: tax).getLast? = some c → isSpaceChar c = false := by
    intro c hc
    rw [show lab ++ ' ' :: tax = (lab ++ [' ']) ++ tax by simp,
      getLast?_append_ne _ _ h3] at hc
    exact lastNotSpace_elim tax h5 c hc
  have hstrip : pyStrip (lab ++ ' ' :: tax) = lab ++ ' ' :: tax :=
    pyStrip_eq_self _ (head_notspace_of_all lab (' ' :: tax) h1 h2) hlastX
  have htw : (lab ++ ' ' :: tax).takeWhile (fun c => !(isSpaceChar c)) = lab := by
    rw [takeWhile_append_all _ _ _ (fun c hc => by simp [h2 c hc])]
    rw [takeWhile_cons_neg (fun c => !(isSpaceChar c)) ' ' tax (by decide)]
    simp
  have hdrop : (lab ++ ' ' :: tax).drop lab.length = ' ' :: tax :=
    List.drop_left lab (' ' :: tax)
  have hstrip2 : pyStrip (' ' :: tax) = tax :=
    pyStrip_cons_space tax (headNotSpace_elim tax h4) (lastNotSpace_elim tax h5)
  unfold Spec.pairOfChunk
  simp only [hstrip, htw, hdrop, hstrip2]
  simp [isEmpty_false_of_ne_nil lab h1, isEmpty_false_of_ne_nil tax h3]

theorem pySplitWsGo_all (cur l : Line) (hcur : cur ≠ [])
    (h : ∀ c ∈ l, isSpaceChar c = false) : pySplitWsGo cur l = [cur ++ l] := by
  induction l generalizing cur with
  | nil => simp [pySplitWsGo, isEmpty_false_of_ne_nil cur hcur]
  | cons c r ih =>
    rw [show pySplitWsGo cur (c :: r) =
      (if isSpaceChar c then
        (if cur.isEmpty then pySplitWsGo [] r else cur :: pySplitWsGo [] r)
       else pySplitWsGo (cur ++ [c]) r) from rfl]
    rw [if_neg (by simp [h c (by simp)])]
    rw [ih (cur ++ [c]) (by simp) (fun c2 h2 => h c2 (by simp [h2]))]
    simp

theorem pySplitWs_single (l : Line) (hne : l ≠ [])
    (h : ∀ c ∈ l, isSpaceChar c = false) : pySplitWs l = [l] := by
  cases l with
  | nil => exact absurd rfl hne
  | cons c r =>
    show pySplitWsGo [] (c :: r) = [c :: r]
    rw [show pySplitWsGo [] (c :: r) =
      (if isSpaceChar c then
        (if ([] : Line).isEmpty then pySplitWsGo [] r else [] :: pySplitWsGo [] r)
       else pySplitWsGo ([] ++ [c]) r) from rfl]
    rw [if_neg (by simp [h c (by simp)])]
    rw [show ([] : Line) ++ [c] = [c] from rfl]
    rw [pySplitWsGo_all [c] r (by simp) (fun c2 h2 => h c2 (by simp [h2]))]
    simp

theorem specStripAux_plain (l : Line)
    (h : ∀ c ∈ l, (c == '[') = false ∧ (c == ']') = false) :
    specStripAux l 0 = l := by
  induction l with
  | nil => rfl
  | cons c r ih =>
    have hc := h c (by simp)
    simp only [specStripAux, hc.1, hc.2]
    simp [ih (fun c2 h2 => h c2 (by simp [h2]))]

theorem specStripAux_skip (l r : Line)
    (h : ∀ c ∈ l, (c == '[') = false ∧ (c == ']') = false) :
    specStripAux (l ++ ']' :: r) 1 = specStripAux r 0 := by
  induction l with
  | nil => simp [specStripAux]
  | cons c cs ih =>
    have hc := h c (by simp)
    rw [List.cons_append]
    simp only [specStripAux, hc.1, hc.2]
    simp [ih (fun c2 h2 => h c2 (by simp [h2]))]

end SeparatorLemmas



section SpecSplitterLemmas

theorem spec_splitRun_cons_ok {st st2 : Spec.SplitSt} {raw : Line} (ls : List Line)
    (h : Spec.splitStep st raw = .ok st2) :
    Spec.splitRun st (raw :: ls) = Spec.splitRun st2 ls := by
  simp [Spec.splitRun, h]

theorem spec_splitStep_content (store : List (Line × List Line)) (b L : Line)
    (hc : Spec.contentLine L) :
    Spec.splitStep ⟨store, some b⟩ L = .ok ⟨appendTo b L store, some b⟩ := by
  obtain ⟨h1, h2, h3, h4, h5⟩ := hc
  simp [Spec.splitStep, h1, isEmpty_false_of_ne_nil L h2, h3, h4, h5]

theorem spec_splitStep_semi (store : List (Line × List Line)) (blk : Option Line) :
    Spec.splitStep ⟨store, blk⟩ (strL ";") = .ok ⟨store, none⟩ := rfl

theorem spec_splitStep_end (store : List (Line × List Line)) (blk : Option Line) :
    Spec.splitStep ⟨store, blk⟩ (strL "end;") = .ok ⟨store, none⟩ := rfl

theorem spec_splitStep_begin (acc : List (Line × List Line)) (bl n : Line)
    (h1 : pyStrip bl = bl) (h2 : bl ≠ [])
    (h3 : (bl.head? == some '[' && bl.getLast? == some ']') = false)
    (h4 : Spec.beginLineName bl = some n)
    (hk : hasKey n acc = false) :
    Spec.splitStep ⟨acc, none⟩ bl = .ok ⟨acc ++ [(n, [])], some n⟩ := by
  simp [Spec.splitStep, h1, isEmpty_false_of_ne_nil bl h2, h3, h4, hk]

theorem pyLower_generic_begin (n : Line) (hn : Spec.nameWF n) :
    pyLower (strL "begin " ++ (n ++ [';'])) = strL "begin " ++ (n ++ [';']) := by
  unfold pyLower
  rw [List.map_append, List.map_append]
  have e2 : n.map Char.toLower = n := mapLower_self n (fun c hc => (hn.2 c hc).2)
  rw [e2]
  rfl

theorem beginLineName_generic (n : Line) (hn : Spec.nameWF n) :
    Spec.beginLineName (strL "begin " ++ (n ++ [';'])) = some n := by
  unfold Spec.beginLineName
  rw [pyLower_generic_begin n hn]
  have hpfx : pfx (strL "begin ") (strL "begin " ++ (n ++ [';'])) = true :=
    pfx_append_self _ _
  have hdrop : (strL "begin " ++ (n ++ [';'])).drop 6 = n ++ [';'] :=
    List.drop_left (strL "begin ") (n ++ [';'])
  have htw : (n ++ [';']).takeWhile isWordChar = n := by
    rw [takeWhile_append_all _ _ _ (fun c hc => (hn.2 c hc).1)]
    simp [takeWhile_cons_neg isWordChar ';' [] (by decide)]
  have hdrop2 : (n ++ [';']).drop n.length = [';'] := List.drop_left n [';']
  simp [hpfx, hdrop, htw, hdrop2, isEmpty_false_of_ne_nil n hn.1]

theorem pyStrip_generic_begin (n : Line) :
    pyStrip (strL "begin " ++ (n ++ [';'])) = strL "begin " ++ (n ++ [';']) := by
  apply pyStrip_eq_self
  · intro c hc
    rw [show (strL "begin " ++ (n ++ [';'])).head? = some 'b' from rfl] at hc
    simp only [Option.some.injEq] at hc
    subst hc
    rfl
  · intro c hc
    rw [show strL "begin " ++ (n ++ [';']) = (strL "begin " ++ n) ++ [';'] by
      rw [List.append_assoc], List.getLast?_concat] at hc
    simp only [Option.some.injEq] at hc
    subst hc
    rfl

theorem comment_cond_generic_begin (n : Line) :
    ((strL "begin " ++ (n ++ [';'])).head? == some '[' &&
      (strL "begin " ++ (n ++ [';'])).getLast? == some ']') = false := rfl

theorem not_nil_generic_begin (n : Line) : strL "begin " ++ (n ++ [';']) ≠ [] := by
  intro h
  have : (strL "begin " ++ (n ++ [';'])).head? = some 'b' := rfl
  rw [h] at this
  exact Option.noConfusion this

theorem spec_splitRun_inner (inner : List Line)
    (hall : ∀ L ∈ inner, Spec.contentLine L) (rest : List Line)
    (acc0 : List (Line × List Line)) (b : Line) (done : List Line)
    (hk : hasKey b acc0 = false) :
    Spec.splitRun ⟨acc0 ++ [(b, done)], some b⟩ (inner ++ rest) =
      Spec.splitRun ⟨acc0 ++ [(b, done ++ inner)], some b⟩ rest := by
  induction inner generalizing done with
  | nil => simp
  | cons L ls ih =>
    have hstep := spec_splitStep_content (acc0 ++ [(b, done)]) b L (hall L (by simp))
    have happ : appendTo b L (acc0 ++ [(b, done)]) = acc0 ++ [(b, done ++ [L])] := by
      rw [appendTo_append_of_not_hasKey _ _ _ _ hk]
      simp [appendTo]
    rw [happ] at hstep
    rw [List.cons_append, spec_splitRun_cons_ok _ hstep]
    rw [ih (fun L2 hL2 => hall L2 (by simp [hL2])) (done ++ [L])]
    simp

end SpecSplitterLemmas

section WrittenLineLemmas

theorem alookup_of_keys (t : Line) (l : List (Line × List Line)) (hmem : t ∈ l.map Prod.fst) :
    ∃ v, alookup t l = some v ∧ (t, v) ∈ l := by
  induction l with
  | nil => simp at hmem
  | cons p r ih =>
    obtain ⟨k, v⟩ := p
    by_cases hk : k = t
    · subst hk
      exact ⟨v, by simp [alookup], by simp⟩
    · have hk2 : (k == t) = false := by simp [hk]
      simp only [List.map_cons, List.mem_cons] at hmem
      rcases hmem with h | h
      · exact absurd h.symm hk
      · obtain ⟨v2, hv1, hv2⟩ := ih h
        exact ⟨v2, by simp [alookup, hk2, hv1], by simp [hv2]⟩

theorem contentLine_dimsLine (s : Spec.DataS) : Spec.contentLine (Spec.dimsLine s) := by
  refine ⟨?_, ?_, ?_, ?_, ?_⟩
  · apply pyStrip_eq_self
    · intro c hc
      rw [show (Spec.dimsLine s).head? = some 'd' from rfl] at hc
      simp only [Option.some.injEq] at hc
      subst hc
      rfl
    · intro c hc
      rw [show Spec.dimsLine s =
          (strL "dimensions ntax=" ++ (natDigits s.ntaxa ++ (strL " nchar=" ++
            natDigits s.nchar))) ++ [';'] by
        simp [Spec.dimsLine, List.append_assoc], List.getLast?_concat] at hc
      simp only [Option.some.injEq] at hc
      subst hc
      rfl
  · intro h
    have : (Spec.dimsLine s).head? = some 'd' := rfl
    rw [h] at this
    exact Option.noConfusion this
  · rfl
  · rfl
  · rfl

theorem contentLine_formatLine (s : Spec.DataS) : Spec.contentLine (Spec.formatLine s) := by
  refine ⟨?_, ?_, ?_, ?_, ?_⟩
  · apply pyStrip_eq_self
    · intro c hc
      rw [show (Spec.formatLine s).head? = some 'f' from rfl] at hc
      simp only [Option.some.injEq] at hc
      subst hc
      rfl
    · intro c hc
      rw [show Spec.formatLine s =
          (strL "format " ++ List.intercalate [' '] (s.format.map Spec.fmtChunk)) ++ [';'] by
        simp [Spec.formatLine, List.append_assoc], List.getLast?_concat] at hc
      simp only [Option.some.injEq] at hc
      subst hc
      rfl
  · intro h
    have : (Spec.formatLine s).head? = some 'f' := rfl
    rw [h] at this
    exact Option.noConfusion this
  · rfl
  · rfl
  · rfl

theorem rowLine_eq (s : Spec.DataS) (t : Line) :
    Spec.rowLine s t = t ++ ' ' :: Spec.rowContent s t := rfl

theorem innerOf_data_content (n : Line) (s : Spec.DataS) (hs : Spec.dataWF s) :
    ∀ L ∈ Spec.innerOf (n, .data s), Spec.contentLine L := by
  intro L hL
  simp only [Spec.innerOf, List.mem_append, List.mem_cons, List.mem_map] at hL
  rcases hL with h | h | h | h | ⟨t, ht, hrow⟩
  · exact (hs.1 L h).1
  · subst h; exact contentLine_dimsLine s
  · subst h; exact contentLine_formatLine s
  · subst h; decide
  · subst hrow
    have hmem : t ∈ s.matrix.map Prod.fst := by rw [hs.2.2.1]; exact ht
    obtain ⟨frags, hlook, hin⟩ := alookup_of_keys t s.matrix hmem
    have hok := hs.2.2.2 (t, frags) hin
    have : Spec.rowLine s t = t ++ ' ' :: frags.flatten := by
      rw [rowLine_eq, Spec.rowContent, hlook]
      rfl
    rw [this]
    exact hok.2.2.2.2.1

theorem contentLine_taxaDimsLine (s : Spec.TaxaS) :
    Spec.contentLine (Spec.taxaDimsLine s) := by
  refine ⟨?_, ?_, ?_, ?_, ?_⟩
  · apply pyStrip_eq_self
    · intro c hc
      rw [show (Spec.taxaDimsLine s).head? = some 'd' from rfl] at hc
      simp only [Option.some.injEq] at hc
      subst hc
      rfl
    · intro c hc
      rw [show Spec.taxaDimsLine s =
          (strL "dimensions ntax=" ++ natDigits s.ntaxa) ++ [';'] by
        simp [Spec.taxaDimsLine, List.append_assoc], List.getLast?_concat] at hc
      simp only [Option.some.injEq] at hc
      subst hc
      rfl
  · intro h
    have : (Spec.taxaDimsLine s).head? = some 'd' := rfl
    rw [h] at this
    exact Option.noConfusion this
  · rfl
  · rfl
  · rfl

theorem taxLine_concat (i : Nat) (t : Line) :
    Spec.taxLine i t =
      ('[' :: (natDigits i ++ (']' :: ' ' :: Spec.squote :: t))) ++ [Spec.squote] := by
  simp [Spec.taxLine]

theorem contentLine_taxLine (i : Nat) (t : Line) : Spec.contentLine (Spec.taxLine i t) := by
  have hh : (Spec.taxLine i t).head? = some '[' := rfl
  have hl : (Spec.taxLine i t).getLast? = some Spec.squote := by
    rw [taxLine_concat]
    exact List.getLast?_concat _
  refine ⟨?_, ?_, ?_, ?_, ?_⟩
  · apply pyStrip_eq_self
    · intro c hc
      rw [hh] at hc
      simp only [Option.some.injEq] at hc
      subst hc
      rfl
    · intro c hc
      rw [hl] at hc
      simp only [Option.some.injEq] at hc
      subst hc
      rfl
  · intro h
    rw [h] at hh
    exact Option.noConfusion hh
  · rw [hh, hl]
    rfl
  · rfl
  · rfl

theorem taxLines_content (ts : List Line) (i : Nat) :
    ∀ L ∈ Spec.taxLines i ts, Spec.contentLine L := by
  induction ts generalizing i with
  | nil => intro L hL; simp [Spec.taxLines] at hL
  | cons t r ih =>
    intro L hL
    rw [show Spec.taxLines i (t :: r) = Spec.taxLine i t :: Spec.taxLines (i + 1) r
      from rfl] at hL
    simp only [List.mem_cons] at hL
    rcases hL with h | h
    · subst h; exact contentLine_taxLine i t
    · exact ih (i + 1) L h

theorem innerOf_taxa_content (s : Spec.TaxaS) (hs : Spec.taxaWF s) :
    ∀ L ∈ Spec.innerOf (strL "taxa", .taxa s), Spec.contentLine L := by
  intro L hL
  simp only [Spec.innerOf, List.mem_append, List.mem_cons] at hL
  rcases hL with h | h | h | h
  · exact (hs.1 L h).1
  · subst h; exact contentLine_taxaDimsLine s
  · subst h; decide
  · exact taxLines_content s.taxa 1 L h

end WrittenLineLemmas

section SpecSplitBlock

theorem pairLines_content (tr : List (Line × Line)) (hpw : ∀ q ∈ tr, Spec.pairWF q) :
    ∀ L ∈ Spec.pairLines tr, Spec.contentLine L := by
  induction tr with
  | nil => intro L hL; simp [Spec.pairLines] at hL
  | cons q qs ih =>
    intro L hL
    cases qs with
    | nil =>
      obtain ⟨lab, tax⟩ := q
      simp only [Spec.pairLines, List.mem_singleton] at hL
      subst hL
      obtain ⟨-, -, -, -, -, -, -, hsemi⟩ := hpw (lab, tax) (by simp)
      simpa using hsemi
    | cons q2 qs2 =>
      obtain ⟨lab, tax⟩ := q
      simp only [Spec.pairLines, List.mem_cons] at hL
      rcases hL with h | h
      · subst h
        obtain ⟨-, -, -, -, -, -, hcomma, -⟩ := hpw (lab, tax) (by simp)
        simpa using hcomma
      · exact ih (fun q3 h3 => hpw q3 (by simp [h3])) L h

theorem transInner_content (tr : List (Line × Line)) (hpw : ∀ q ∈ tr, Spec.pairWF q) :
    ∀ L ∈ Spec.transInner tr, Spec.contentLine L := by
  intro L hL
  unfold Spec.transInner at hL
  cases tr with
  | nil => simp at hL
  | cons q qs =>
    simp only [List.mem_cons] at hL
    rcases hL with h | h
    · subst h; decide
    · exact pairLines_content (q :: qs) hpw L h

theorem innerOf_trees_content (s : Spec.TreesS) (hs : Spec.treesWF s) :
    ∀ L ∈ Spec.innerOf (strL "trees", .trees s), Spec.contentLine L := by
  intro L hL
  simp only [Spec.innerOf, List.mem_append] at hL
  rcases hL with (h | h) | h
  · exact (hs.1 L h).1
  · exact transInner_content s.translators hs.2.2 L h
  · exact (hs.2.1 L h).1

theorem spec_split_block (p : Line × Spec.Handler) (hwf : Spec.blockWF p)
    (acc : List (Line × List Line)) (hk : hasKey p.1 acc = false) (rest : List Line) :
    Spec.splitRun ⟨acc, none⟩ (Spec.writeBlock p ++ rest) =
      Spec.splitRun ⟨acc ++ [(p.1, Spec.innerOf p)], none⟩ rest := by
  obtain ⟨n, h⟩ := p
  cases h with
  | data s =>
    simp only [Spec.blockWF] at hwf
    obtain ⟨hn, hs⟩ := hwf
    have hnw : Spec.nameWF n := by rcases hn with hn | hn <;> (subst hn; decide)
    have hshape : Spec.writeBlock (n, .data s) ++ rest =
        (strL "begin " ++ (n ++ [';'])) ::
          (Spec.innerOf (n, .data s) ++ (strL ";" :: strL "end;" :: rest)) := by
      simp [Spec.writeBlock, Spec.writeData, Spec.innerOf, List.append_assoc]
    rw [hshape]
    have hbegin := spec_splitStep_begin acc (strL "begin " ++ (n ++ [';'])) n
      (pyStrip_generic_begin n) (not_nil_generic_begin n)
      (comment_cond_generic_begin n) (beginLineName_generic n hnw) hk
    rw [spec_splitRun_cons_ok _ hbegin]
    rw [spec_splitRun_inner _ (innerOf_data_content n s hs) _ acc n [] hk]
    rw [spec_splitRun_cons_ok _ (spec_splitStep_semi _ _)]
    rw [spec_splitRun_cons_ok _ (spec_splitStep_end _ _)]
    simp
  | taxa s =>
    simp only [Spec.blockWF] at hwf
    obtain ⟨hn, hs⟩ := hwf
    subst hn
    have hshape : Spec.writeBlock (strL "taxa", .taxa s) ++ rest =
        strL "begin taxa;" ::
          (Spec.innerOf (strL "taxa", .taxa s) ++ (strL ";" :: strL "end;" :: rest)) := by
      simp [Spec.writeBlock, Spec.writeTaxa, Spec.innerOf, List.append_assoc]
    rw [hshape]
    have hbegin := spec_splitStep_begin acc (strL "begin taxa;") (strL "taxa")
      (by decide) (by decide) (by decide) (by decide) hk
    rw [spec_splitRun_cons_ok _ hbegin]
    rw [spec_splitRun_inner _ (innerOf_taxa_content s hs) _ acc (strL "taxa") [] hk]
    rw [spec_splitRun_cons_ok _ (spec_splitStep_semi _ _)]
    rw [spec_splitRun_cons_ok _ (spec_splitStep_end _ _)]
    simp
  | trees s =>
    simp only [Spec.blockWF] at hwf
    obtain ⟨hn, hs⟩ := hwf
    subst hn
    have hshape : Spec.writeBlock (strL "trees", .trees s) ++ rest =
        strL "begin trees;" ::
          (Spec.innerOf (strL "trees", .trees s) ++ (strL "end;" :: rest)) := by
      simp [Spec.writeBlock, Spec.writeTrees, Spec.innerOf, List.append_assoc]
    rw [hshape]
    have hbegin := spec_splitStep_begin acc (strL "begin trees;") (strL "trees")
      (by decide) (by decide) (by decide) (by decide) hk
    rw [spec_splitRun_cons_ok _ hbegin]
    rw [spec_splitRun_inner _ (innerOf_trees_content s hs) _ acc (strL "trees") [] hk]
    rw [spec_splitRun_cons_ok _ (spec_splitStep_end _ _)]
    simp
  | generic ls =>
    simp only [Spec.blockWF] at hwf
    obtain ⟨hn, hd, hch, ht, hx, hls⟩ := hwf
    have hshape : Spec.writeBlock (n, .generic ls) ++ rest =
        (strL "begin " ++ (n ++ [';'])) ::
          (Spec.innerOf (n, .generic ls) ++ (strL "end;" :: rest)) := by
      simp [Spec.writeBlock, Spec.innerOf, List.append_assoc]
    rw [hshape]
    have hbegin := spec_splitStep_begin acc (strL "begin " ++ (n ++ [';'])) n
      (pyStrip_generic_begin n) (not_nil_generic_begin n)
      (comment_cond_generic_begin n) (beginLineName_generic n hn) hk
    rw [spec_splitRun_cons_ok _ hbegin]
    rw [spec_splitRun_inner _ (fun L hL => hls L (by simpa [Spec.innerOf] using hL)) _
      acc n [] hk]
    rw [spec_splitRun_cons_ok _ (spec_splitStep_end _ _)]
    simp [Spec.innerOf]

theorem spec_split_writeDoc (d : Spec.Document) (acc : List (Line × List Line))
    (hwf : ∀ p ∈ d, Spec.blockWF p)
    (hnd : (acc.map Prod.fst ++ d.map Prod.fst).Nodup) :
    Spec.splitRun ⟨acc, none⟩ (Spec.writeDoc d) = .ok ⟨acc ++ Spec.storeOf d, none⟩ := by
  induction d generalizing acc with
  | nil => simp [Spec.writeDoc, Spec.storeOf, Spec.splitRun]
  | cons p r ih =>
    have hk : hasKey p.1 acc = false := by
      rw [hasKey_false_iff]
      intro hmem
      rw [List.nodup_append] at hnd
      exact hnd.2.2 hmem (List.mem_map_of_mem Prod.fst (List.mem_cons_self p r))
    rw [show Spec.writeDoc (p :: r) = Spec.writeBlock p ++ Spec.writeDoc r from rfl]
    rw [spec_split_block p (hwf p (by simp)) acc hk]
    rw [ih (acc ++ [(p.1, Spec.innerOf p)]) (fun q hq => hwf q (by simp [hq]))
      (by simpa [List.append_assoc] using hnd)]
    simp [Spec.storeOf, List.append_assoc]

end SpecSplitBlock

section SpecDataLemmas

theorem contains_false_of_not_mem (l : List Line) (t : Line) (h : t ∉ l) :
    l.contains t = false := by
  induction l with
  | nil => rfl
  | cons x xs ih =>
    simp only [List.mem_cons, not_or] at h
    have hx : (x == t) = false := by
      rw [beq_eq_false_iff_ne]
      exact fun e => h.1 (e ▸ rfl)
    simp only [List.contains_cons, Bool.or_eq_false_iff]
    refine ⟨by rw [beq_eq_false_iff_ne]; exact h.1, ih h.2⟩

theorem appendTo_absent (k : Line) (v : α) (l : List (Line × List α))
    (h : hasKey k l = false) : appendTo k v l = l ++ [(k, [v])] := by
  have := appendTo_append_of_not_hasKey k v l [] h
  simpa using this

theorem spec_dataRun_cons_ok {st st2 : Bool × Spec.DataS} {L : Line} (ls : List Line)
    (h : Spec.dataStep st L = .ok st2) :
    Spec.dataRun st (L :: ls) = Spec.dataRun st2 ls := by
  simp [Spec.dataRun, h]

theorem attr_not_kw (A : Line)
    (h : pfx (strL "title ") (pyLower A) = true ∨ pfx (strL "link ") (pyLower A) = true) :
    pfx (strL "dimensions ") (pyLower A) = false ∧
    pfx (strL "format ") (pyLower A) = false ∧
    pfx (strL "matrix") (pyLower A) = false := by
  refine ⟨?_, ?_, ?_⟩
  · cases hbad : pfx (strL "dimensions ") (pyLower A) with
    | false => rfl
    | true =>
      rcases h with h | h
      · exact absurd (pfx_pfx _ _ _ h hbad (by decide)) (by decide)
      · exact absurd (pfx_pfx _ _ _ h hbad (by decide)) (by decide)
  · cases hbad : pfx (strL "format ") (pyLower A) with
    | false => rfl
    | true =>
      rcases h with h | h
      · exact absurd (pfx_pfx _ _ _ h hbad (by decide)) (by decide)
      · exact absurd (pfx_pfx _ _ _ h hbad (by decide)) (by decide)
  · cases hbad : pfx (strL "matrix") (pyLower A) with
    | false => rfl
    | true =>
      rcases h with h | h
      · exact absurd (pfx_pfx _ _ _ h hbad (by decide)) (by decide)
      · exact absurd (pfx_pfx _ _ _ h hbad (by decide)) (by decide)

theorem spec_dataStep_attr (m : Bool) (s0 : Spec.DataS) (A : Line) (ha : Spec.attrWF A) :
    Spec.dataStep (m, s0) A = .ok (m, { s0 with attributes := s0.attributes ++ [A] }) := by
  obtain ⟨hc, hattr, hchar⟩ := ha
  obtain ⟨h1, h2, h3⟩ := attr_not_kw A hattr
  have hor : (pfx (strL "title ") (pyLower A) || pfx (strL "link ") (pyLower A)) = true := by
    rcases hattr with h | h <;> simp [h]
  simp [Spec.dataStep, h1, h2, h3, hchar, hor]

theorem spec_dataRun_attrs (attrs : List Line) (hall : ∀ L ∈ attrs, Spec.attrWF L)
    (rest : List Line) (m : Bool) (s0 : Spec.DataS) :
    Spec.dataRun (m, s0) (attrs ++ rest) =
      Spec.dataRun (m, { s0 with attributes := s0.attributes ++ attrs }) rest := by
  induction attrs generalizing s0 with
  | nil => simp
  | cons A as ih =>
    rw [List.cons_append,
      spec_dataRun_cons_ok _ (spec_dataStep_attr m s0 A (hall A (by simp)))]
    rw [ih (fun L hL => hall L (by simp [hL])) { s0 with attributes := s0.attributes ++ [A] }]
    simp [List.append_assoc]

theorem pyLower_dimsLine (s : Spec.DataS) : pyLower (Spec.dimsLine s) = Spec.dimsLine s := by
  apply mapLower_self
  intro c hc
  unfold Spec.dimsLine at hc
  simp only [List.mem_append, List.mem_singleton] at hc
  have hcon : ∀ c2 ∈ strL "dimensions ntax=", c2.toLower = c2 := by decide
  have hcon2 : ∀ c2 ∈ strL " nchar=", c2.toLower = c2 := by decide
  rcases hc with h | h | h | h | h
  · exact hcon c h
  · exact toLower_of_isDigitC c (isDigitC_all_natDigits s.ntaxa c h)
  · exact hcon2 c h
  · exact toLower_of_isDigitC c (isDigitC_all_natDigits s.nchar c h)
  · subst h; rfl

theorem spec_dataStep_dims (m : Bool) (s0 s : Spec.DataS) :
    Spec.dataStep (m, s0) (Spec.dimsLine s) =
      .ok (m, { s0 with ntaxa := s.ntaxa, nchar := s.nchar }) := by
  have hl := pyLower_dimsLine s
  have hpfx : pfx (strL "dimensions ") (Spec.dimsLine s) = true := rfl
  have hdims : Spec.dimsOf (Spec.dimsLine s) = some (s.ntaxa, s.nchar) := by
    unfold Spec.dimsOf Spec.dimsLine
    rw [scanNat_ntax, scanNat_nchar]
  simp [Spec.dataStep, hl, hpfx, hdims]

theorem spec_dataStep_format (m : Bool) (s0 s : Spec.DataS) :
    Spec.dataStep (m, s0) (Spec.formatLine s) =
      .ok (m, { s0 with format := Spec.specParseFormat (Spec.formatLine s) }) := by
  have h1 : pfx (strL "dimensions ") (pyLower (Spec.formatLine s)) = false := rfl
  have h2 : pfx (strL "format ") (pyLower (Spec.formatLine s)) = true := rfl
  simp [Spec.dataStep, h1, h2]

theorem spec_dataStep_matrix (m : Bool) (s0 : Spec.DataS) :
    Spec.dataStep (m, s0) (strL "matrix") = .ok (true, s0) := rfl

theorem spec_splitWsRun_row (t ff : Line) (ht1 : t ≠ [])
    (ht2 : ∀ c ∈ t, isSpaceChar c = false) (hf1 : ff ≠ [])
    (hf2 : Spec.headNotSpace ff = true) :
    Spec.splitWsRun (t ++ ' ' :: ff) = some (t, ff) := by
  unfold Spec.splitWsRun
  have htw : (t ++ ' ' :: ff).takeWhile (fun c => !(isSpaceChar c)) = t := by
    rw [takeWhile_append_all _ _ _ (fun c hc => by simp [ht2 c hc])]
    rw [takeWhile_cons_neg (fun c => !(isSpaceChar c)) ' ' ff (by decide)]
    simp
  have hdrop : (t ++ ' ' :: ff).drop t.length = ' ' :: ff := List.drop_left t (' ' :: ff)
  have hdw : List.dropWhile isSpaceChar (' ' :: ff) = ff := by
    rw [List.dropWhile_cons, if_pos (show isSpaceChar ' ' = true from rfl)]
    cases ff with
    | nil => rfl
    | cons c r =>
      unfold Spec.headNotSpace at hf2
      simp only [List.head?] at hf2
      exact dropWhile_cons_neg _ _ _ (by simpa using hf2)
  simp only [htw, hdrop, hdw]
  simp [isEmpty_false_of_ne_nil t ht1, isEmpty_false_of_ne_nil ff hf1]

theorem spec_dataStep_row (s0 : Spec.DataS) (t : Line) (frags : List Line)
    (hok : Spec.rowOK t frags) :
    Spec.dataStep (true, s0) (t ++ ' ' :: frags.flatten) =
      .ok (true, Spec.registerRow s0 t frags.flatten) := by
  obtain ⟨h1, h2, h3, h4, hc, hd, hf, hm, hcs, hti, hli⟩ := hok
  have hsw := spec_splitWsRun_row t frags.flatten h1 h2 h3 h4
  simp [Spec.dataStep, hd, hf, hm, hcs, hti, hli, hsw]

end SpecDataLemmas

section SpecDataAssembly

theorem keys_rowMap (s : Spec.DataS) (done : List Line) :
    (done.map (fun t => (t, [Spec.rowContent s t]))).map Prod.fst = done := by
  induction done with
  | nil => rfl
  | cons x xs ih => simp [ih]

theorem spec_dataRun_rows (s : Spec.DataS) (hnd : s.taxa.Nodup)
    (hkeys : s.matrix.map Prod.fst = s.taxa)
    (hok : ∀ p ∈ s.matrix, Spec.rowOK p.1 p.2)
    (ts done : List Line) (hsplit : s.taxa = done ++ ts)
    (nt nc : Nat) (fmt : List (Line × Option Line)) (attrs : List Line) :
    Spec.dataRun
        (true, ⟨nt, nc, fmt, done.map (fun t => (t, [Spec.rowContent s t])), done, attrs⟩)
        (ts.map (Spec.rowLine s)) =
      .ok (true, ⟨nt, nc, fmt, (done ++ ts).map (fun t => (t, [Spec.rowContent s t])),
        done ++ ts, attrs⟩) := by
  induction ts generalizing done with
  | nil => simp [Spec.dataRun]
  | cons t ts2 ih =>
    have htmem : t ∈ s.taxa := by rw [hsplit]; simp
    have hmem2 : t ∈ s.matrix.map Prod.fst := by rw [hkeys]; exact htmem
    obtain ⟨frags, hlook, hin⟩ := alookup_of_keys t s.matrix hmem2
    have hokk := hok (t, frags) hin
    have hrc : Spec.rowContent s t = frags.flatten := by
      rw [Spec.rowContent, hlook]
      rfl
    have hline : Spec.rowLine s t = t ++ ' ' :: frags.flatten := by
      rw [rowLine_eq, hrc]
    have htnd : t ∉ done := by
      rw [hsplit, List.nodup_append] at hnd
      intro hmem3
      exact hnd.2.2 hmem3 (by simp)
    have hcont : done.contains t = false := contains_false_of_not_mem done t htnd
    have hhk : hasKey t (done.map (fun t2 => (t2, [Spec.rowContent s t2]))) = false := by
      rw [hasKey_false_iff, keys_rowMap]
      exact htnd
    have hstep := spec_dataStep_row
      ⟨nt, nc, fmt, done.map (fun t2 => (t2, [Spec.rowContent s t2])), done, attrs⟩
      t frags hokk
    rw [← hline] at hstep
    have hreg : Spec.registerRow
        ⟨nt, nc, fmt, done.map (fun t2 => (t2, [Spec.rowContent s t2])), done, attrs⟩
        t frags.flatten =
        ⟨nt, nc, fmt, (done ++ [t]).map (fun t2 => (t2, [Spec.rowContent s t2])),
          done ++ [t], attrs⟩ := by
      unfold Spec.registerRow
      simp only [hcont, Bool.false_eq_true, if_false]
      rw [appendTo_absent _ _ _ hhk]
      simp [hrc]
    rw [hreg] at hstep
    rw [List.map_cons, spec_dataRun_cons_ok _ hstep]
    have hsplit2 : s.taxa = (done ++ [t]) ++ ts2 := by
      rw [hsplit]; simp
    have := ih (done ++ [t]) hsplit2
    rw [this]
    simp

theorem spec_parseData_inner (n : Line) (s : Spec.DataS) (hs : Spec.dataWF s) :
    Spec.parseData (Spec.innerOf (n, .data s)) = .ok (Spec.reparseData s) := by
  obtain ⟨hattrs, hnd, hkeys, hok⟩ := hs
  unfold Spec.parseData
  rw [show Spec.innerOf (n, .data s) =
    s.attributes ++ (Spec.dimsLine s :: Spec.formatLine s :: strL "matrix" ::
      s.taxa.map (Spec.rowLine s)) from rfl]
  rw [spec_dataRun_attrs s.attributes hattrs _ false Spec.initDataS]
  have e0 : { Spec.initDataS with attributes := Spec.initDataS.attributes ++ s.attributes } =
      (⟨0, 0, [], [], [], s.attributes⟩ : Spec.DataS) := by
    simp [Spec.initDataS]
  rw [e0]
  rw [spec_dataRun_cons_ok _ (spec_dataStep_dims false ⟨0, 0, [], [], [], s.attributes⟩ s)]
  rw [spec_dataRun_cons_ok _ (spec_dataStep_format false _ s)]
  rw [spec_dataRun_cons_ok _ (spec_dataStep_matrix false _)]
  have hrows := spec_dataRun_rows s hnd hkeys hok s.taxa [] rfl
    s.ntaxa s.nchar (Spec.specParseFormat (Spec.formatLine s)) s.attributes
  simp only [List.map_nil, List.nil_append] at hrows
  rw [hrows]
  rfl

end SpecDataAssembly

section SpecTreesLemmas

theorem spec_treesRun_cons (st : Bool × Spec.TreesS) (L : Line) (ls : List Line) :
    Spec.treesRun st (L :: ls) = Spec.treesRun (Spec.treesStep st L) ls := rfl

theorem spec_treesStep_attr (s0 : Spec.TreesS) (A : Line) (ha : Spec.attrWF A) :
    Spec.treesStep (false, s0) A = (false, { s0 with attributes := s0.attributes ++ [A] }) := by
  obtain ⟨hc, hattr, hchar⟩ := ha
  have hor : (pfx (strL "title ") (pyLower A) || pfx (strL "link ") (pyLower A)) = true := by
    rcases hattr with h | h <;> simp [h]
  simp [Spec.treesStep, hor]

theorem spec_treesRun_attrs (attrs : List Line) (hall : ∀ L ∈ attrs, Spec.attrWF L)
    (rest : List Line) (s0 : Spec.TreesS) :
    Spec.treesRun (false, s0) (attrs ++ rest) =
      Spec.treesRun (false, { s0 with attributes := s0.attributes ++ attrs }) rest := by
  induction attrs generalizing s0 with
  | nil => simp
  | cons A as ih =>
    rw [List.cons_append, spec_treesRun_cons,
      spec_treesStep_attr s0 A (hall A (by simp))]
    rw [ih (fun L hL => hall L (by simp [hL])) { s0 with attributes := s0.attributes ++ [A] }]
    simp [List.append_assoc]

theorem spec_treesStep_translate (s0 : Spec.TreesS) :
    Spec.treesStep (false, s0) (strL "translate") =
      (true, { s0 with was_translated := true }) := by
  have h : Spec.treesStep (false, s0) (strL "translate") =
      (true, { s0 with was_translated := true, translators := s0.translators ++ [] }) := rfl
  rw [h]
  simp

theorem spec_pairs_comma_line (lab tax : Line) (hp : Spec.pairWF (lab, tax)) :
    Spec.pairsOfLine (lab ++ ' ' :: tax) = [(lab, tax)] := by
  obtain ⟨h1, h2, h3, h4, h5, h6, hc1, hc2⟩ := hp
  have hnocomma : ∀ c ∈ lab ++ ' ' :: tax, (c == ',') = false := by
    intro c hc
    simp only [List.mem_append, List.mem_cons] at hc
    rcases hc with h | h | h
    · exact (h2 c h).2.1
    · subst h; rfl
    · exact (h6 c h).1
  unfold Spec.pairsOfLine
  rw [splitOnChar_no_sep ',' _ hnocomma]
  have hpoc := pairOfChunk_pair lab tax h1 (fun c hc => (h2 c hc).1) h3 h4 h5
  simp [List.filterMap_cons, hpoc]

theorem pair_line_nosemi (lab tax : Line) (hp : Spec.pairWF (lab, tax)) :
    ∀ c ∈ lab ++ ' ' :: tax, (c == ';') = false := by
  obtain ⟨h1, h2, h3, h4, h5, h6, hc1, hc2⟩ := hp
  intro c hc
  simp only [List.mem_append, List.mem_cons] at hc
  rcases hc with h | h | h
  · exact (h2 c h).2.2
  · subst h; rfl
  · exact (h6 c h).2

theorem spec_transLine_comma (s0 : Spec.TreesS) (lab tax : Line)
    (hp : Spec.pairWF (lab, tax)) :
    Spec.transLine s0 ((lab ++ ' ' :: tax) ++ [',']) =
      (true, { s0 with translators := s0.translators ++ [(lab, tax)] }) := by
  have hnosemi := pair_line_nosemi lab tax hp
  obtain ⟨h1, h2, h3, h4, h5, h6, hc1, hc2⟩ := hp
  · have hdone : ((lab ++ ' ' :: tax) ++ [',']).contains ';' = false := by
      apply char_contains_false
      intro c hc
      simp only [List.mem_append, List.mem_singleton] at hc
      rcases hc with h | h
      · exact hnosemi c (List.mem_append.mpr h)
      · subst h; rfl
    have hbody : ((lab ++ ' ' :: tax) ++ [',']).takeWhile (fun c => !(c == ';')) =
        (lab ++ ' ' :: tax) ++ [','] := by
      have := takeWhile_append_all (fun c => !(c == ';')) ((lab ++ ' ' :: tax) ++ [',']) []
        (by
          intro c hc
          simp only [List.mem_append, List.mem_singleton] at hc
          rcases hc with h | h
          · simp [hnosemi c (List.mem_append.mpr h)]
          · subst h; rfl)
      simpa using this
    have hpairs : Spec.pairsOfLine ((lab ++ ' ' :: tax) ++ [',']) = [(lab, tax)] := by
      unfold Spec.pairsOfLine
      rw [show (lab ++ ' ' :: tax) ++ [','] = (lab ++ ' ' :: tax) ++ ',' :: [] from rfl]
      rw [splitOnChar_append_sep ',' _ [] (by
        intro c hc
        simp only [List.mem_append, List.mem_cons] at hc
        rcases hc with h | h | h
        · exact (h2 c h).2.1
        · subst h; rfl
        · exact (h6 c h).1)]
      have hpoc := pairOfChunk_pair lab tax h1 (fun c hc => (h2 c hc).1) h3 h4 h5
      rw [show splitOnChar ',' ([] : Line) = [[]] from rfl]
      have hpoc2 : Spec.pairOfChunk [] = none := rfl
      simp [List.filterMap_cons, hpoc, hpoc2]
    unfold Spec.transLine
    simp only [hdone, hbody, hpairs]
    simp

theorem spec_transLine_semi (s0 : Spec.TreesS) (lab tax : Line)
    (hp : Spec.pairWF (lab, tax)) :
    Spec.transLine s0 ((lab ++ ' ' :: tax) ++ [';']) =
      (false, { s0 with translators := s0.translators ++ [(lab, tax)] }) := by
  have hnosemi := pair_line_nosemi lab tax hp
  have hdone : ((lab ++ ' ' :: tax) ++ [';']).contains ';' = true :=
    char_contains_concat _ _
  have hbody : ((lab ++ ' ' :: tax) ++ [';']).takeWhile (fun c => !(c == ';')) =
      lab ++ ' ' :: tax := by
    rw [takeWhile_append_all _ _ _ (fun c hc => by simp [hnosemi c hc])]
    rw [takeWhile_cons_neg (fun c => !(c == ';')) ';' [] (by decide)]
    simp
  have hpairs : Spec.pairsOfLine (lab ++ ' ' :: tax) = [(lab, tax)] :=
    spec_pairs_comma_line lab tax hp
  unfold Spec.transLine
  simp only [hdone, hbody, hpairs]
  simp

theorem spec_treesStep_pair_comma (s0 : Spec.TreesS) (lab tax : Line)
    (hp : Spec.pairWF (lab, tax)) :
    Spec.treesStep (true, s0) (lab ++ ' ' :: (tax ++ [','])) =
      (true, { s0 with translators := s0.translators ++ [(lab, tax)] }) := by
  have h := spec_transLine_comma s0 lab tax hp
  rw [show lab ++ ' ' :: (tax ++ [',']) = (lab ++ ' ' :: tax) ++ [','] by simp]
  exact h

theorem spec_treesStep_pair_semi (s0 : Spec.TreesS) (lab tax : Line)
    (hp : Spec.pairWF (lab, tax)) :
    Spec.treesStep (true, s0) (lab ++ ' ' :: (tax ++ [';'])) =
      (false, { s0 with translators := s0.translators ++ [(lab, tax)] }) := by
  have h := spec_transLine_semi s0 lab tax hp
  rw [show lab ++ ' ' :: (tax ++ [';']) = (lab ++ ' ' :: tax) ++ [';'] by simp]
  exact h

theorem spec_treesRun_pairs (tr : List (Line × Line)) (hne : tr ≠ [])
    (hpw : ∀ q ∈ tr, Spec.pairWF q) (rest : List Line) (s0 : Spec.TreesS) :
    Spec.treesRun (true, s0) (Spec.pairLines tr ++ rest) =
      Spec.treesRun (false, { s0 with translators := s0.translators ++ tr }) rest := by
  induction tr generalizing s0 with
  | nil => exact absurd rfl hne
  | cons q qs ih =>
    obtain ⟨lab, tax⟩ := q
    cases qs with
    | nil =>
      rw [show Spec.pairLines [(lab, tax)] = [lab ++ ' ' :: (tax ++ [';'])] by
        simp [Spec.pairLines]]
      rw [List.singleton_append, spec_treesRun_cons,
        spec_treesStep_pair_semi s0 lab tax (hpw _ (by simp))]
    | cons q2 qs2 =>
      rw [show Spec.pairLines ((lab, tax) :: q2 :: qs2) =
        (lab ++ ' ' :: (tax ++ [','])) :: Spec.pairLines (q2 :: qs2) by
          simp [Spec.pairLines]]
      rw [List.cons_append, spec_treesRun_cons,
        spec_treesStep_pair_comma s0 lab tax (hpw _ (by simp))]
      rw [ih (by simp) (fun q3 h3 => hpw q3 (by simp [h3]))]
      have he : (s0.translators ++ [(lab, tax)]) ++ (q2 :: qs2) =
          s0.translators ++ ((lab, tax) :: q2 :: qs2) := by simp
      rw [he]

theorem spec_treesStep_tree (s0 : Spec.TreesS) (T : Line) (ht : Spec.treeLineWF T) :
    Spec.treesStep (false, s0) T = (false, { s0 with trees := s0.trees ++ [T] }) := by
  obtain ⟨hc, hp⟩ := ht
  have h1 : pfx (strL "title ") (pyLower T) = false := by
    cases hbad : pfx (strL "title ") (pyLower T) with
    | false => rfl
    | true => exact absurd (pfx_pfx _ _ _ hp hbad (by decide)) (by decide)
  have h2 : pfx (strL "link ") (pyLower T) = false := by
    cases hbad : pfx (strL "link ") (pyLower T) with
    | false => rfl
    | true => exact absurd (pfx_pfx _ _ _ hbad hp (by decide)) (by decide)
  have h3 : pfx (strL "translate") (pyLower T) = false := by
    cases hbad : pfx (strL "translate") (pyLower T) with
    | false => rfl
    | true => exact absurd (pfx_pfx _ _ _ hp hbad (by decide)) (by decide)
  simp [Spec.treesStep, h1, h2, h3, hp]

theorem spec_treesRun_trees (ts : List Line) (hall : ∀ L ∈ ts, Spec.treeLineWF L)
    (s0 : Spec.TreesS) :
    Spec.treesRun (false, s0) ts = (false, { s0 with trees := s0.trees ++ ts }) := by
  induction ts generalizing s0 with
  | nil => simp [Spec.treesRun]
  | cons T ts2 ih =>
    rw [spec_treesRun_cons, spec_treesStep_tree s0 T (hall T (by simp))]
    rw [ih (fun L hL => hall L (by simp [hL])) { s0 with trees := s0.trees ++ [T] }]
    simp [List.append_assoc]

theorem spec_parseTrees_inner (s : Spec.TreesS) (hs : Spec.treesWF s) :
    Spec.parseTrees (Spec.innerOf (strL "trees", .trees s)) = Spec.reparseTrees s := by
  obtain ⟨hattrs, htrees, hpairs⟩ := hs
  unfold Spec.parseTrees
  rw [show Spec.innerOf (strL "trees", .trees s) =
    s.attributes ++ (Spec.transInner s.translators ++ s.trees) by
      simp [Spec.innerOf, List.append_assoc]]
  rw [spec_treesRun_attrs s.attributes hattrs _ Spec.initTreesS]
  cases htr : s.translators with
  | nil =>
    rw [show Spec.transInner [] = [] from rfl, List.nil_append]
    rw [spec_treesRun_trees s.trees htrees]
    simp [Spec.initTreesS, Spec.reparseTrees, htr]
  | cons q qs =>
    rw [show Spec.transInner (q :: qs) = strL "translate" :: Spec.pairLines (q :: qs) from rfl]
    rw [List.cons_append, spec_treesRun_cons, spec_treesStep_translate]
    rw [spec_treesRun_pairs (q :: qs) (by simp) (by rw [← htr]; exact hpairs) s.trees]
    rw [spec_treesRun_trees s.trees htrees]
    simp [Spec.initTreesS, Spec.reparseTrees, htr]

end SpecTreesLemmas

section SpecTaxaLemmas

theorem spec_taxaRun_cons (st : Bool × Spec.TaxaS) (L : Line) (ls : List Line) :
    Spec.taxaRun st (L :: ls) = Spec.taxaRun (Spec.taxaStep st L) ls := rfl

theorem attr_not_taxlabels (A : Line)
    (h : pfx (strL "title ") (pyLower A) = true ∨ pfx (strL "link ") (pyLower A) = true) :
    pfx (strL "taxlabels") (pyLower A) = false := by
  cases hbad : pfx (strL "taxlabels") (pyLower A) with
  | false => rfl
  | true =>
    rcases h with h | h
    · exact absurd (pfx_pfx _ _ _ h hbad (by decide)) (by decide)
    · exact absurd (pfx_pfx _ _ _ h hbad (by decide)) (by decide)

theorem spec_taxaStep_attr (m : Bool) (s0 : Spec.TaxaS) (A : Line) (ha : Spec.attrWF A) :
    Spec.taxaStep (m, s0) A = (m, { s0 with attributes := s0.attributes ++ [A] }) := by
  obtain ⟨hc, hattr, hchar⟩ := ha
  obtain ⟨h1, h2, h3⟩ := attr_not_kw A hattr
  have hor : (pfx (strL "title ") (pyLower A) || pfx (strL "link ") (pyLower A)) = true := by
    rcases hattr with h | h <;> simp [h]
  simp [Spec.taxaStep, h1, hor]

theorem spec_taxaRun_attrs (attrs : List Line) (hall : ∀ L ∈ attrs, Spec.attrWF L)
    (rest : List Line) (m : Bool) (s0 : Spec.TaxaS) :
    Spec.taxaRun (m, s0) (attrs ++ rest) =
      Spec.taxaRun (m, { s0 with attributes := s0.attributes ++ attrs }) rest := by
  induction attrs generalizing s0 with
  | nil => simp
  | cons A as ih =>
    rw [List.cons_append, spec_taxaRun_cons, spec_taxaStep_attr m s0 A (hall A (by simp))]
    rw [ih (fun L hL => hall L (by simp [hL])) { s0 with attributes := s0.attributes ++ [A] }]
    simp [List.append_assoc]

theorem pyLower_taxaDimsLine (s : Spec.TaxaS) :
    pyLower (Spec.taxaDimsLine s) = Spec.taxaDimsLine s := by
  apply mapLower_self
  intro c hc
  unfold Spec.taxaDimsLine at hc
  simp only [List.mem_append, List.mem_singleton] at hc
  have hcon : ∀ c2 ∈ strL "dimensions ntax=", c2.toLower = c2 := by decide
  rcases hc with h | h | h
  · exact hcon c h
  · exact toLower_of_isDigitC c (isDigitC_all_natDigits s.ntaxa c h)
  · subst h; rfl

theorem scanNat_ntax_taxa (nt : Nat) :
    scanNat (strL "ntax=") (strL "dimensions ntax=" ++ (natDigits nt ++ [';'])) =
      some nt := by
  have hskip : scanNat (strL "ntax=") (strL "dimensions ntax=" ++ (natDigits nt ++ [';'])) =
      scanNat (strL "ntax=") (strL "ntax=" ++ (natDigits nt ++ [';'])) := rfl
  rw [hskip]
  rw [scanNat_found _ _ (by decide)
    (by rw [takeWhile_digits_semi]; exact isEmpty_false_of_ne_nil _ (natDigits_ne_nil nt))]
  rw [takeWhile_digits_semi, readDigits_natDigits]

theorem spec_taxaStep_dims (m : Bool) (s0 s : Spec.TaxaS) :
    Spec.taxaStep (m, s0) (Spec.taxaDimsLine s) = (m, { s0 with ntaxa := s.ntaxa }) := by
  have hl := pyLower_taxaDimsLine s
  have hpfx : pfx (strL "dimensions ") (Spec.taxaDimsLine s) = true := rfl
  have hscan : scanNat (strL "ntax=") (Spec.taxaDimsLine s) = some s.ntaxa :=
    scanNat_ntax_taxa s.ntaxa
  simp [Spec.taxaStep, hl, hpfx, hscan]

theorem spec_taxaStep_taxlabels (m : Bool) (s0 : Spec.TaxaS) :
    Spec.taxaStep (m, s0) (strL "taxlabels") = (true, s0) := by
  have h : Spec.taxaStep (m, s0) (strL "taxlabels") =
      (true, { s0 with taxa := s0.taxa ++ [] }) := rfl
  rw [h]
  simp

theorem specRemoveComments_taxLine (i : Nat) (t : Line)
    (ht : ∀ c ∈ t, (c == '[') = false ∧ (c == ']') = false) :
    specRemoveComments (Spec.taxLine i t) =
      ' ' :: Spec.squote :: (t ++ [Spec.squote]) := by
  show specStripAux
    ('[' :: (natDigits i ++ (']' :: ' ' :: Spec.squote :: (t ++ [Spec.squote])))) 0 = _
  rw [show specStripAux
      ('[' :: (natDigits i ++ (']' :: ' ' :: Spec.squote :: (t ++ [Spec.squote])))) 0 =
    specStripAux (natDigits i ++ (']' :: ' ' :: Spec.squote :: (t ++ [Spec.squote]))) 1
    from rfl]
  rw [specStripAux_skip (natDigits i) _ (fun c hc => by
    have hd := isDigitC_all_natDigits i c hc
    constructor
    · exact beq_symm_false _ _ (beq_false_of_isDigitC '[' c (by decide) hd)
    · exact beq_symm_false _ _ (beq_false_of_isDigitC ']' c (by decide) hd))]
  apply specStripAux_plain
  intro c hc
  simp only [List.mem_cons, List.mem_append, List.not_mem_nil, or_false] at hc
  rcases hc with h | h | h | h
  · subst h; exact ⟨rfl, rfl⟩
  · subst h; exact ⟨by decide, by decide⟩
  · exact ht c h
  · subst h; exact ⟨by decide, by decide⟩

theorem unquote_quoted (t : Line) :
    Spec.unquote (Spec.squote :: (t ++ [Spec.squote])) = t := by
  have hlast : (Spec.squote :: (t ++ [Spec.squote])).getLast? = some Spec.squote := by
    rw [show Spec.squote :: (t ++ [Spec.squote]) =
      (Spec.squote :: t) ++ [Spec.squote] by simp]
    exact List.getLast?_concat _
  have hlen : 2 ≤ (Spec.squote :: (t ++ [Spec.squote])).length := by simp
  have hcond : (decide (2 ≤ (Spec.squote :: (t ++ [Spec.squote])).length) &&
      (Spec.squote :: (t ++ [Spec.squote])).head? == some Spec.squote &&
      (Spec.squote :: (t ++ [Spec.squote])).getLast? == some Spec.squote) = true := by
    rw [hlast]
    simp [hlen]
  unfold Spec.unquote
  rw [if_pos hcond]
  show ((Spec.squote :: (t ++ [Spec.squote])).drop 1).dropLast = t
  rw [show (Spec.squote :: (t ++ [Spec.squote])).drop 1 = t ++ [Spec.squote] from rfl]
  exact List.dropLast_concat

theorem spec_taxaStep_label (s0 : Spec.TaxaS) (i : Nat) (t : Line)
    (ht : Spec.taxonWF t) :
    Spec.taxaStep (true, s0) (Spec.taxLine i t) =
      (true, { s0 with taxa := s0.taxa ++ [t] }) := by
  obtain ⟨htne, hch⟩ := ht
  have h1 : pfx (strL "dimensions ") (pyLower (Spec.taxLine i t)) = false := rfl
  have h2 : pfx (strL "title ") (pyLower (Spec.taxLine i t)) = false := rfl
  have h3 : pfx (strL "link ") (pyLower (Spec.taxLine i t)) = false := rfl
  have h4 : pfx (strL "taxlabels") (pyLower (Spec.taxLine i t)) = false := rfl
  have hbrack : ∀ c ∈ t, (c == '[') = false ∧ (c == ']') = false :=
    fun c hc => ⟨(hch c hc).2.2.1, (hch c hc).2.2.2.1⟩
  have hrc : specRemoveComments (Spec.taxLine i t) =
      ' ' :: Spec.squote :: (t ++ [Spec.squote]) := specRemoveComments_taxLine i t hbrack
  have hstrip : pyStrip (' ' :: Spec.squote :: (t ++ [Spec.squote])) =
      Spec.squote :: (t ++ [Spec.squote]) := by
    apply pyStrip_cons_space
    · intro c hc
      rw [show (Spec.squote :: (t ++ [Spec.squote])).head? = some Spec.squote from rfl] at hc
      simp only [Option.some.injEq] at hc
      subst hc
      rfl
    · intro c hc
      rw [show Spec.squote :: (t ++ [Spec.squote]) =
        (Spec.squote :: t) ++ [Spec.squote] by simp, List.getLast?_concat] at hc
      simp only [Option.some.injEq] at hc
      subst hc
      rfl
  have hnosemi : ∀ c ∈ Spec.squote :: (t ++ [Spec.squote]), (c == ';') = false := by
    intro c hc
    simp only [List.mem_cons, List.mem_append, List.not_mem_nil, or_false] at hc
    rcases hc with h | h | h
    · subst h; rfl
    · exact (hch c h).2.2.2.2
    · subst h; rfl
  have hdone : (Spec.squote :: (t ++ [Spec.squote])).contains ';' = false :=
    char_contains_false _ _ hnosemi
  have hcore : (Spec.squote :: (t ++ [Spec.squote])).takeWhile (fun c => !(c == ';')) =
      Spec.squote :: (t ++ [Spec.squote]) := by
    have := takeWhile_append_all (fun c => !(c == ';'))
      (Spec.squote :: (t ++ [Spec.squote])) [] (fun c hc => by simp [hnosemi c hc])
    simpa using this
  have hsingle : pySplitWs (Spec.squote :: (t ++ [Spec.squote])) =
      [Spec.squote :: (t ++ [Spec.squote])] := by
    apply pySplitWs_single _ (by simp)
    intro c hc
    simp only [List.mem_cons, List.mem_append, List.not_mem_nil, or_false] at hc
    rcases hc with h | h | h
    · subst h; rfl
    · exact (hch c h).1
    · subst h; rfl
  have huq : Spec.unquote (Spec.squote :: (t ++ [Spec.squote])) = t := unquote_quoted t
  have hstep : Spec.taxaStep (true, s0) (Spec.taxLine i t) =
      Spec.taxaPayload s0 (Spec.taxLine i t) := by
    simp [Spec.taxaStep, h1, h2, h3, h4]
  rw [hstep]
  unfold Spec.taxaPayload
  simp only [hrc, hstrip, hdone, hcore, hsingle]
  simp [huq]

theorem spec_taxaRun_labels (ts : List Line) (hall : ∀ t ∈ ts, Spec.taxonWF t)
    (i : Nat) (s0 : Spec.TaxaS) :
    Spec.taxaRun (true, s0) (Spec.taxLines i ts) =
      (true, { s0 with taxa := s0.taxa ++ ts }) := by
  induction ts generalizing i s0 with
  | nil => simp [Spec.taxLines, Spec.taxaRun]
  | cons t r ih =>
    rw [show Spec.taxLines i (t :: r) = Spec.taxLine i t :: Spec.taxLines (i + 1) r
      from rfl]
    rw [spec_taxaRun_cons, spec_taxaStep_label s0 i t (hall t (by simp))]
    rw [ih (fun t2 h2 => hall t2 (by simp [h2])) (i + 1)]
    simp [List.append_assoc]

theorem spec_parseTaxa_inner (s : Spec.TaxaS) (hs : Spec.taxaWF s) :
    Spec.parseTaxa (Spec.innerOf (strL "taxa", .taxa s)) = Spec.reparseTaxa s := by
  obtain ⟨hattrs, htax⟩ := hs
  unfold Spec.parseTaxa
  rw [show Spec.innerOf (strL "taxa", .taxa s) =
    s.attributes ++ (Spec.taxaDimsLine s :: strL "taxlabels" :: Spec.taxLines 1 s.taxa)
    from rfl]
  rw [spec_taxaRun_attrs s.attributes hattrs _ false Spec.initTaxaS]
  have e0 : { Spec.initTaxaS with attributes := Spec.initTaxaS.attributes ++ s.attributes } =
      (⟨0, [], s.attributes⟩ : Spec.TaxaS) := by
    simp [Spec.initTaxaS]
  rw [e0]
  rw [spec_taxaRun_cons, spec_taxaStep_dims false ⟨0, [], s.attributes⟩ s]
  rw [spec_taxaRun_cons, spec_taxaStep_taxlabels false _]
  rw [spec_taxaRun_labels s.taxa htax 1]
  simp [Spec.reparseTaxa]

end SpecTaxaLemmas

section SpecAssembly

theorem alookup_none_of_not_mem (t : Line) (l : List (Line × α))
    (h : t ∉ l.map Prod.fst) : alookup t l = none := by
  induction l with
  | nil => rfl
  | cons p r ih =>
    obtain ⟨k, v⟩ := p
    simp only [List.map_cons, List.mem_cons, not_or] at h
    have hk : (k == t) = false := by
      rw [beq_eq_false_iff_ne]
      exact fun e => h.1 e.symm
    simp [alookup, hk, ih h.2]

theorem alookup_map_self (ts : List Line) (g : Line → List Line) (t : Line)
    (ht : t ∈ ts) :
    alookup t (ts.map (fun x => (x, g x))) = some (g t) := by
  induction ts with
  | nil => simp at ht
  | cons x xs ih =>
    by_cases hx : x = t
    · subst hx
      simp [alookup]
    · have hk : (x == t) = false := by simp [hx]
      simp only [List.mem_cons] at ht
      rcases ht with h | h
      · exact absurd h.symm hx
      · simp [alookup, hk, ih h]

theorem spec_doHandlers_storeOf (d : Spec.Document) (hwf : ∀ p ∈ d, Spec.blockWF p) :
    Spec.doHandlers (Spec.storeOf d) = .ok (Spec.reparseDoc d) := by
  induction d with
  | nil => rfl
  | cons p r ih =>
    obtain ⟨n, h⟩ := p
    have hwfp := hwf (n, h) (by simp)
    have hr := ih (fun q hq => hwf q (by simp [hq]))
    cases h with
    | data s =>
      simp only [Spec.blockWF] at hwfp
      obtain ⟨hn, hs⟩ := hwfp
      rw [show Spec.storeOf ((n, .data s) :: r) =
        (n, Spec.innerOf (n, .data s)) :: Spec.storeOf r from rfl]
      rw [show ∀ x rest, Spec.doHandlers ((n, x) :: rest) =
          (match Spec.mkHandler n x with
           | .error e => .error e
           | .ok h2 =>
             match Spec.doHandlers rest with
             | .error e => .error e
             | .ok hs2 => .ok ((n, h2) :: hs2)) from fun x rest => rfl]
      have hmk : Spec.mkHandler n (Spec.innerOf (n, .data s)) =
          .ok (.data (Spec.reparseData s)) := by
        unfold Spec.mkHandler
        rw [if_pos (by rcases hn with hn | hn <;> (subst hn; decide))]
        rw [spec_parseData_inner n s hs]
        rfl
      rw [hmk, hr]
      rfl
    | taxa s =>
      simp only [Spec.blockWF] at hwfp
      obtain ⟨hn, hs⟩ := hwfp
      subst hn
      rw [show Spec.storeOf ((strL "taxa", .taxa s) :: r) =
        (strL "taxa", Spec.innerOf (strL "taxa", .taxa s)) :: Spec.storeOf r from rfl]
      rw [show ∀ x rest, Spec.doHandlers ((strL "taxa", x) :: rest) =
          (match Spec.mkHandler (strL "taxa") x with
           | .error e => .error e
           | .ok h2 =>
             match Spec.doHandlers rest with
             | .error e => .error e
             | .ok hs2 => .ok ((strL "taxa", h2) :: hs2)) from fun x rest => rfl]
      have hmk : Spec.mkHandler (strL "taxa") (Spec.innerOf (strL "taxa", .taxa s)) =
          .ok (.taxa (Spec.reparseTaxa s)) := by
        unfold Spec.mkHandler
        rw [if_neg (by decide), if_neg (by decide), if_pos (by decide)]
        rw [spec_parseTaxa_inner s hs]
      rw [hmk, hr]
      rfl
    | trees s =>
      simp only [Spec.blockWF] at hwfp
      obtain ⟨hn, hs⟩ := hwfp
      subst hn
      rw [show Spec.storeOf ((strL "trees", .trees s) :: r) =
        (strL "trees", Spec.innerOf (strL "trees", .trees s)) :: Spec.storeOf r from rfl]
      rw [show ∀ x rest, Spec.doHandlers ((strL "trees", x) :: rest) =
          (match Spec.mkHandler (strL "trees") x with
           | .error e => .error e
           | .ok h2 =>
             match Spec.doHandlers rest with
             | .error e => .error e
             | .ok hs2 => .ok ((strL "trees", h2) :: hs2)) from fun x rest => rfl]
      have hmk : Spec.mkHandler (strL "trees") (Spec.innerOf (strL "trees", .trees s)) =
          .ok (.trees (Spec.reparseTrees s)) := by
        unfold Spec.mkHandler
        rw [if_neg (by decide), if_pos (by decide)]
        rw [spec_parseTrees_inner s hs]
      rw [hmk, hr]
      rfl
    | generic ls =>
      simp only [Spec.blockWF] at hwfp
      obtain ⟨hn, hd, hch, ht, hx, hls⟩ := hwfp
      rw [show Spec.storeOf ((n, .generic ls) :: r) =
        (n, Spec.innerOf (n, .generic ls)) :: Spec.storeOf r from rfl]
      rw [show ∀ x rest, Spec.doHandlers ((n, x) :: rest) =
          (match Spec.mkHandler n x with
           | .error e => .error e
           | .ok h2 =>
             match Spec.doHandlers rest with
             | .error e => .error e
             | .ok hs2 => .ok ((n, h2) :: hs2)) from fun x rest => rfl]
      have hmk : Spec.mkHandler n (Spec.innerOf (n, .generic ls)) =
          .ok (.generic ls) := by
        unfold Spec.mkHandler
        rw [if_neg (by simp [hd, hch]), if_neg (by simp [ht]), if_neg (by simp [hx])]
        rfl
      rw [hmk, hr]
      rfl

theorem handlerEquiv_reparse (n : Line) (h : Spec.Handler)
    (hwfp : Spec.blockWF (n, h)) :
    Spec.handlerEquiv h (Spec.reparseHandler (n, h)) := by
  cases h with
  | data s =>
    simp only [Spec.blockWF] at hwfp
    obtain ⟨hn, hattrs, hnd, hkeys, hok⟩ := hwfp
    show Spec.handlerEquiv (.data s) (.data (Spec.reparseData s))
    rw [show Spec.reparseData s =
      ⟨s.ntaxa, s.nchar, Spec.specParseFormat (Spec.formatLine s),
        s.taxa.map (fun t2 => (t2, [Spec.rowContent s t2])), s.taxa,
        s.attributes⟩ from rfl]
    refine ⟨rfl, rfl, rfl, rfl, ?_⟩
    intro t
    show (alookup t s.matrix).map List.flatten =
      (alookup t (s.taxa.map (fun t2 => (t2, [Spec.rowContent s t2])))).map List.flatten
    by_cases ht : t ∈ s.taxa
    · obtain ⟨frags, hlook, hin⟩ := alookup_of_keys t s.matrix (by rw [hkeys]; exact ht)
      have hmap : alookup t (s.taxa.map (fun t2 => (t2, [Spec.rowContent s t2]))) =
          some [Spec.rowContent s t] := alookup_map_self s.taxa _ t ht
      have hrc : Spec.rowContent s t = frags.flatten := by
        rw [Spec.rowContent, hlook]
        rfl
      rw [hlook, hmap]
      simp [hrc]
    · have h1 : alookup t s.matrix = none :=
        alookup_none_of_not_mem t s.matrix (by rw [hkeys]; exact ht)
      have h2 : alookup t (s.taxa.map (fun t2 => (t2, [Spec.rowContent s t2]))) = none := by
        apply alookup_none_of_not_mem
        rw [keys_rowMap]
        exact ht
      rw [h1, h2]
  | trees s =>
    show Spec.handlerEquiv (.trees s) (.trees (Spec.reparseTrees s))
    rw [show Spec.reparseTrees s =
      ⟨s.translators, s.trees, s.attributes, !s.translators.isEmpty, false⟩ from rfl]
    exact ⟨rfl, rfl, rfl⟩
  | taxa s =>
    show Spec.handlerEquiv (.taxa s) (.taxa (Spec.reparseTaxa s))
    rw [show Spec.reparseTaxa s = ⟨s.ntaxa, s.taxa, s.attributes⟩ from rfl]
    exact ⟨rfl, rfl, rfl⟩
  | generic ls => rfl

theorem docEquiv_reparse (d : Spec.Document) (hwf : ∀ p ∈ d, Spec.blockWF p) :
    Spec.docEquiv d (Spec.reparseDoc d) := by
  induction d with
  | nil => exact trivial
  | cons p r ih =>
    obtain ⟨n, h⟩ := p
    exact ⟨rfl, handlerEquiv_reparse n h (hwf (n, h) (by simp)),
      ih (fun q hq => hwf q (by simp [hq]))⟩

end SpecAssembly

section RoundTripClaim

/-- C1: for every input text that parses to a well-formed document, writing
the document and re-parsing the output yields a document with the same
block names in the same order, the same dimensions, the same concatenated
matrix contents per taxon, the same trees and translation data, the same
taxa lists, and the same declared attributes in order, for every handler of
the registry: data, characters, trees, taxa and the generic fallback. -/
theorem write_parse_roundtrip (lines : List Line) (d : Spec.Document)
    (hparse : Spec.doc lines = .ok d) (hwf : Spec.docWF d) :
    ∃ d2, Spec.doc (Spec.writeDoc d) = .ok d2 ∧ Spec.docEquiv d d2 := by
  obtain ⟨hnd, hbl⟩ := hwf
  refine ⟨Spec.reparseDoc d, ?_, docEquiv_reparse d hbl⟩
  unfold Spec.doc Spec.split
  rw [spec_split_writeDoc d [] hbl (by simpa using hnd)]
  simp only [Except.map, List.nil_append]
  exact spec_doHandlers_storeOf d hbl

theorem write_parse_roundtrip_witness :
    ∃ d2,
      Spec.doc (Spec.writeDoc
        [(strL "data", .data ⟨2, 2, [(strL "datatype", some (strL "standard"))],
            [(strL "Harry", [strL "00"]), (strL "Simon", [strL "01"])],
            [strL "Harry", strL "Simon"], [strL "TITLE t1;"]⟩),
          (strL "characters", .data ⟨2, 2, [(strL "datatype", some (strL "standard"))],
            [(strL "Harry", [strL "10"]), (strL "Simon", [strL "11"])],
            [strL "Harry", strL "Simon"], []⟩),
          (strL "trees", .trees ⟨[(strL "1", strL "Harry"), (strL "2", strL "Simon")],
            [strL "tree t = (1,2);"], [], true, false⟩),
          (strL "taxa", .taxa ⟨2, [strL "Harry", strL "Simon"], []⟩)]) = .ok d2 ∧
      Spec.docEquiv
        [(strL "data", .data ⟨2, 2, [(strL "datatype", some (strL "standard"))],
            [(strL "Harry", [strL "00"]), (strL "Simon", [strL "01"])],
            [strL "Harry", strL "Simon"], [strL "TITLE t1;"]⟩),
          (strL "characters", .data ⟨2, 2, [(strL "datatype", some (strL "standard"))],
            [(strL "Harry", [strL "10"]), (strL "Simon", [strL "11"])],
            [strL "Harry", strL "Simon"], []⟩),
          (strL "trees", .trees ⟨[(strL "1", strL "Harry"), (strL "2", strL "Simon")],
            [strL "tree t = (1,2);"], [], true, false⟩),
          (strL "taxa", .taxa ⟨2, [strL "Harry", strL "Simon"], []⟩)] d2 :=
  write_parse_roundtrip
    ((["begin data;", "TITLE t1;", "dimensions ntax=2 nchar=2;",
      "format datatype=standard;", "matrix", "Harry 00", "Simon 01", ";", "end;",
      "begin characters;", "dimensions ntax=2 nchar=2;",
      "format datatype=standard;", "matrix", "Harry 10", "Simon 11", ";", "end;",
      "begin trees;", "translate 1 Harry, 2 Simon;", "tree t = (1,2);", "end;",
      "begin taxa;", "dimensions ntax=2;", "taxlabels Harry Simon;",
      "end;"]).map String.toList)
    [(strL "data", .data ⟨2, 2, [(strL "datatype", some (strL "standard"))],
        [(strL "Harry", [strL "00"]), (strL "Simon", [strL "01"])],
        [strL "Harry", strL "Simon"], [strL "TITLE t1;"]⟩),
      (strL "characters", .data ⟨2, 2, [(strL "datatype", some (strL "standard"))],
        [(strL "Harry", [strL "10"]), (strL "Simon", [strL "11"])],
        [strL "Harry", strL "Simon"], []⟩),
      (strL "trees", .trees ⟨[(strL "1", strL "Harry"), (strL "2", strL "Simon")],
        [strL "tree t = (1,2);"], [], true, false⟩),
      (strL "taxa", .taxa ⟨2, [strL "Harry", strL "Simon"], []⟩)]
    (by decide) (by decide)

end RoundTripClaim
